import Mathlib

/-!
# Verification of the obsidian note+ indexing / retrieval core

A shallow embedding, in Lean 4, of the core algorithms of the plugin:

* `RecursiveCharacterTextSplitter` (text-splitter, `splitText` /
  `splitTextRecursive` / `splitBySeparator` / `getOverlapText`);
* `VectorStore` (`isExcluded`, `cosineSimilarity`, `matchesFilter`, `search`,
  `hasValidVector`, `saveVector`, `deleteVectors`, `getChunkIdsForFile`,
  `purgeExcludedVectors`);
* `EmbeddingManager` (`hashContent`, `embedChunks`, `renameFileVectors`,
  `calculateKeywordScore`, `getQueryEmbedding`, hybrid `search`);
* `RAGEngine.ask` and the `openrouter` wrappers.

Modelling conventions:

* JavaScript strings are modelled as `List Char` (named `Str` below), so that
  the string operations the code uses (`slice`, `trim`, `includes`, `split`,
  `startsWith`, `endsWith`, `toLowerCase`) are the corresponding executable
  list operations.
* JavaScript numbers are modelled as real numbers (`ℝ`): the code computes
  with IEEE doubles; all the scoring claims are about the exact arithmetic.
* `Map<string, StoredVector>` is modelled as an insertion-ordered association
  list; `Map.set` updates in place when the key exists and appends otherwise,
  which is exactly the iteration-order contract of a JS `Map`.
* `Array.prototype.sort` with the comparator `(a, b) => b.score - a.score` is
  a stable sort by descending score (ES2019 requires stability); it is
  modelled by a stable insertion sort by descending score.
* Network calls (`getEmbeddings` / the chat completion) are external
  collaborators: they are passed in as function-valued parameters, and the
  `try/catch` wrappers around them are modelled with `Except`.
* The text splitter's recursion consumes at least one separator of the
  hierarchy at every level at which it recurses, so its depth is bounded by
  the length of the separator list; the recursion is written with an explicit
  fuel parameter set to `separators.length + 1`, which the actual calls never
  exhaust.
-/

namespace ON

/-- JS strings, modelled as lists of characters. -/
abbrev Str := List Char

/-- `String.prototype.trim()`: drop leading and trailing whitespace. -/
def trimCL (s : Str) : Str :=
  ((s.dropWhile Char.isWhitespace).reverse.dropWhile Char.isWhitespace).reverse

/-! ## Text splitter (`text-splitter.ts`) -/

/-- `text.split(sep)` for a non-empty separator `c0 :: sr`: cut the text at
every (leftmost, non-overlapping) occurrence of the separator.  The recursion
consumes at least one character per step, so it is written structurally on a
fuel initialised to the text's length; fuel `0` is only ever reached with the
empty rest, where `[s]` coincides with the `[]` equation. -/
def splitOnAux (c0 : Char) (sr : Str) : Nat → Str → List Str
  | 0, s => [s]
  | _ + 1, [] => [[]]
  | fuel + 1, c :: cs =>
    if (c0 :: sr).isPrefixOf (c :: cs) then
      [] :: splitOnAux c0 sr fuel ((c :: cs).drop (c0 :: sr).length)
    else
      match splitOnAux c0 sr fuel cs with
      | [] => [[c]]
      | p :: ps => (c :: p) :: ps

/-- `String.prototype.split(sep)`.  The splitter only calls it with a
non-empty separator (the empty separator goes to the character-window
branch), so the `[]` case is arbitrary. -/
def splitOnCL : Str → Str → List Str
  | [], s => [s]
  | c0 :: sr, s => splitOnAux c0 sr s.length s

/-- The character-window base case of `splitBySeparator`: slices of length
`cs` taken every `step` characters (`for (i = 0; i < len; i += step)`).
The code only calls it with `step = chunkSize - chunkOverlap ≥ 1` (the
constructor rejects `chunkOverlap >= chunkSize`); `max step 1` totalises the
definition where the JS loop would not terminate.  Fuel as in
`splitOnAux`. -/
def charWindowsAux (cs step : Nat) : Nat → Str → List Str
  | 0, _ => []
  | _ + 1, [] => []
  | fuel + 1, c :: rest =>
    (c :: rest).take cs :: charWindowsAux cs step fuel ((c :: rest).drop (max step 1))

/-- The character windows of a text. -/
def charWindows (cs step : Nat) (s : Str) : List Str :=
  charWindowsAux cs step s.length s

/-- `getOverlapText`: the last `chunkOverlap` characters of a chunk. -/
def getOverlapText (co : Nat) (s : Str) : Str :=
  if s.length ≤ co then s else s.drop (s.length - co)

/-- One separator matches when it is the empty string or occurs in the
text (`sep === "" || text.includes(sep)`). -/
def sepMatches (text sep : Str) : Bool :=
  sep.isEmpty || decide (sep <:+: text)

/-- The separator-selection loop of `splitTextRecursive`: the first separator
of the hierarchy that matches, together with the remaining (lower-priority)
separators; if none matches, the default is the last separator (`?? ""`) and
the separator list is left unchanged. -/
def findSeparator (text : Str) (seps : List Str) : Str × List Str :=
  match seps.findIdx? (sepMatches text) with
  | some i => ((seps[i]?).getD (seps.getLast?.getD []), seps.drop (i + 1))
  | none => (seps.getLast?.getD [], seps)

/-- `splitBySeparator`: character windows for the empty separator, otherwise
split on the separator and drop empty segments. -/
def splitBySeparator (cs co : Nat) (sep text : Str) : List Str :=
  if sep = [] then charWindows cs (cs - co) text
  else (splitOnCL sep text).filter (fun s => !s.isEmpty)

/-- The merge loop of `splitTextRecursive`: greedily accumulate segments into
`currentChunk`; when the next segment would overflow `chunkSize`, push the
trimmed current chunk (if non-empty) and either recurse into the oversized
segment (`recurse`) or seed the next chunk with the overlap suffix of the
one just closed. -/
def mergeLoop (cs co : Nat) (sep : Str) (recurse : Str → List Str) :
    List Str → Str → List Str → List Str
  | [], currentChunk, acc =>
      if !(trimCL currentChunk).isEmpty then acc ++ [trimCL currentChunk] else acc
  | split :: rest, currentChunk, acc =>
      let splitWithSep := if sep ≠ [] then split ++ sep else split
      if cs < currentChunk.length + splitWithSep.length then
        let acc1 := if !(trimCL currentChunk).isEmpty then acc ++ [trimCL currentChunk] else acc
        if cs < splitWithSep.length then
          mergeLoop cs co sep recurse rest [] (acc1 ++ recurse split)
        else
          mergeLoop cs co sep recurse rest (getOverlapText co currentChunk ++ splitWithSep) acc1
      else
        mergeLoop cs co sep recurse rest (currentChunk ++ splitWithSep) acc

/-- `splitTextRecursive text separators` with explicit fuel (see the header
note: the real recursion depth is bounded by the separator hierarchy's
length, so the fuel used by `splitText` is never exhausted). -/
def splitTextRec (cs co : Nat) : Nat → Str → List Str → List Str
  | 0, _, _ => []
  | fuel + 1, text, seps =>
      if text.length ≤ cs then
        if !(trimCL text).isEmpty then [text] else []
      else
        let sn := findSeparator text seps
        mergeLoop cs co sn.1 (fun t => splitTextRec cs co fuel t sn.2)
          (splitBySeparator cs co sn.1 text) [] []

/-- The separator hierarchy `["\n\n", "\n", ". ", " ", ""]`. -/
def separators : List Str := [['\n', '\n'], ['\n'], ['.', ' '], [' '], []]

/-- `RecursiveCharacterTextSplitter.splitText` for a splitter configured with
`chunkSize = cs` and `chunkOverlap = co`. -/
def splitText (cs co : Nat) (text : Str) : List Str :=
  splitTextRec cs co (separators.length + 1) text separators

/-! ## Vector store (`vector-store.ts`) -/

/-- A stored vector record.  The `content` / `filePath` / `fileLink` fields of
the persisted JSON may be missing on legacy records, and the code tests them
with JS truthiness, so they are modelled as `Option Str` (with `none` for a
missing field). -/
structure StoredVector where
  vector : List ℝ
  contentHash : Str
  content : Option Str
  filePath : Option Str
  fileLink : Option Str

/-- JS falsiness of a possibly-missing string field: missing or empty. -/
def falsy (o : Option Str) : Bool := (o.getD []).isEmpty

/-- The `Map<string, StoredVector>` of the store, as an insertion-ordered
association list with (invariantly) unique keys. -/
abbrev VectorMap := List (Str × StoredVector)

/-- `Map.get`. -/
def getVector (m : VectorMap) (chunkId : Str) : Option StoredVector :=
  (m.find? (fun e => e.1 == chunkId)).map (fun e => e.2)

/-- `hasValidVector`: the stored record exists and its content hash matches. -/
def hasValidVector (m : VectorMap) (chunkId contentHash : Str) : Bool :=
  match getVector m chunkId with
  | some stored => stored.contentHash == contentHash
  | none => false

/-- `Map.set`: overwrite in place when the key is present (keeping its
iteration position, as a JS `Map` does), append otherwise. -/
def mapSet (m : VectorMap) (k : Str) (v : StoredVector) : VectorMap :=
  if m.any (fun e => e.1 == k) then m.map (fun e => if e.1 == k then (k, v) else e)
  else m ++ [(k, v)]

/-- `saveVector`: store a record with all content fields present. -/
def saveVector (m : VectorMap) (chunkId : Str) (vector : List ℝ)
    (contentHash content filePath fileLink : Str) : VectorMap :=
  mapSet m chunkId ⟨vector, contentHash, some content, some filePath, some fileLink⟩

/-- `deleteVectors(chunkIds)`: remove every listed key. -/
def deleteVectors (m : VectorMap) (chunkIds : List Str) : VectorMap :=
  m.filter (fun e => !chunkIds.any (fun id => id == e.1))

/-- `getChunkIdsForFile`: all keys with the prefix `filePath + "::"`, in
iteration order. -/
def getChunkIdsForFile (m : VectorMap) (filePath : Str) : List Str :=
  (m.map (fun e => e.1)).filter (fun id => (filePath ++ [':', ':']).isPrefixOf id)

/-- `isExcluded`: the excluded-folder check of the vector store (note: it
tests only `startsWith(folder + "/")`-style prefixes, both disjuncts collapse
to the same test when the folder has no trailing slash). -/
def isExcluded (excludedFolders : List Str) (filePath : Str) : Bool :=
  excludedFolders.any (fun folder =>
    if folder.isEmpty then false
    else
      let normalizedFolder := if (['/'] : Str).isSuffixOf folder then folder else folder ++ ['/']
      normalizedFolder.isPrefixOf filePath || (folder ++ ['/']).isPrefixOf filePath)

/-- The slice of the host app's metadata cache that `matchesFilter` reads for
one file: inline tags (each already carrying its `#`), the frontmatter `tags`
field (array or single string, collapsed to a list) and the singular
frontmatter `tag` field.  A file that does not exist, or has no cache entry,
is modelled as `none` (both make every tag check fail, as in the code). -/
structure FileCache where
  tags : List Str
  frontmatterTags : List Str
  frontmatterTag : Option Str

/-- `SearchOptions`: all-optional filter fields. -/
structure SearchOptions where
  files : Option (List Str)
  folders : Option (List Str)
  tags : Option (List Str)

/-- Tag normalisation: lowercase and ensure a leading `#`. -/
def normalizeTag (t : Str) : Str :=
  if (['#'] : Str).isPrefixOf t then t.map Char.toLower else '#' :: t.map Char.toLower

/-- The tag list collected for a file by `matchesFilter`. -/
def fileTagsOf (cache : FileCache) : List Str :=
  cache.tags.map (fun t => t.map Char.toLower)
    ++ cache.frontmatterTags.map normalizeTag
    ++ (match cache.frontmatterTag with | some t => [normalizeTag t] | none => [])

/-- `matchesFilter`: a file passes when no filter is set, or when it matches
the file list exactly, or a folder prefix, or a tag (exactly or
hierarchically). -/
def matchesFilter (oracle : Str → Option FileCache) (opts : Option SearchOptions)
    (filePath : Str) : Bool :=
  match opts with
  | none => true
  | some options =>
    let hasFileFilter := !(options.files.getD []).isEmpty
    let hasFolderFilter := !(options.folders.getD []).isEmpty
    let hasTagFilter := !(options.tags.getD []).isEmpty
    if !hasFileFilter && !hasFolderFilter && !hasTagFilter then true
    else if hasFileFilter && (options.files.getD []).any (fun f => f == filePath) then true
    else if hasFolderFilter && (options.folders.getD []).any (fun folder =>
        let normalizedFolder := if (['/'] : Str).isSuffixOf folder then folder else folder ++ ['/']
        normalizedFolder.isPrefixOf filePath || filePath == folder) then true
    else if hasTagFilter then
      match oracle filePath with
      | none => false
      | some cache =>
        (options.tags.getD []).any (fun selectedTag =>
          let normalizedSelected := normalizeTag selectedTag
          (fileTagsOf cache).any (fun fileTag =>
            fileTag == normalizedSelected || (normalizedSelected ++ ['/']).isPrefixOf fileTag))
    else false

/-- A search result (vector stage or hybrid stage). -/
structure SearchResult where
  chunkId : Str
  content : Str
  filePath : Str
  fileLink : Str
  score : ℝ

/-- `cosineSimilarity`: `dot(a,b) / (‖a‖ * ‖b‖)`, and `0` when the lengths
differ, the vectors are empty, or the denominator is zero. -/
noncomputable def cosineSimilarity (a b : List ℝ) : ℝ :=
  if a.length ≠ b.length ∨ a.length = 0 then 0
  else if Real.sqrt ((a.map (fun x => x * x)).sum) *
      Real.sqrt ((b.map (fun x => x * x)).sum) = 0 then 0
  else (List.zipWith (fun x y => x * y) a b).sum /
    (Real.sqrt ((a.map (fun x => x * x)).sum) * Real.sqrt ((b.map (fun x => x * x)).sum))

/-- Stable insertion (before the first strictly smaller score) used to model
`Array.prototype.sort((a, b) => b.score - a.score)`. -/
noncomputable def insertByScore (x : SearchResult) : List SearchResult → List SearchResult
  | [] => [x]
  | y :: ys => if x.score ≥ y.score then x :: y :: ys else y :: insertByScore x ys

/-- The stable descending-by-score sort. -/
noncomputable def sortByScoreDesc : List SearchResult → List SearchResult
  | [] => []
  | x :: xs => insertByScore x (sortByScoreDesc xs)

/-- One iteration of the `search` loop: skip records with a falsy `content`
or `filePath`, skip excluded folders, apply the filter, otherwise score. -/
noncomputable def searchStep (excludedFolders : List Str) (oracle : Str → Option FileCache)
    (opts : Option SearchOptions) (queryVector : List ℝ) (entry : Str × StoredVector) :
    Option SearchResult :=
  if falsy entry.2.content || falsy entry.2.filePath then none
  else if isExcluded excludedFolders (entry.2.filePath.getD []) then none
  else if !matchesFilter oracle opts (entry.2.filePath.getD []) then none
  else some ⟨entry.1, entry.2.content.getD [], entry.2.filePath.getD [],
    entry.2.fileLink.getD [], cosineSimilarity queryVector entry.2.vector⟩

/-- `VectorStore.search`: score the eligible records, sort by descending
similarity (stable), return the first `limit`. -/
noncomputable def VectorStore.search (m : VectorMap) (excludedFolders : List Str)
    (oracle : Str → Option FileCache) (queryVector : List ℝ) (limit : Nat)
    (opts : Option SearchOptions) : List SearchResult :=
  (sortByScoreDesc (m.filterMap (searchStep excludedFolders oracle opts queryVector))).take limit

/-- `purgeExcludedVectors`: delete every record whose (truthy) file path is
excluded; returns the deleted count and the new store. -/
def purgeExcludedVectors (excludedFolders : List Str) (m : VectorMap) : Nat × VectorMap :=
  if excludedFolders.isEmpty then (0, m)
  else
    let toDelete := (m.filter (fun e =>
      !falsy e.2.filePath && isExcluded excludedFolders (e.2.filePath.getD []))).map (fun e => e.1)
    (toDelete.length, m.filter (fun e => !toDelete.any (fun id => id == e.1)))

/-! ## Embedding manager (`embedding-manager.ts`) and `openrouter.ts` -/

/-- One step of the djb2 loop, tracked modulo `2^32`: `hash = ((hash << 5) +
hash) + charCode` followed by the `hash & hash` 32-bit coercion.  (Character
codes are UTF-16 code units in JS; `Char.toNat` agrees on the BMP characters
all the claims use.) -/
def hashStep (h : Nat) (c : Char) : Nat := (h * 33 + c.toNat) % 4294967296

/-- The djb2 hash value (`hash >>> 0`). -/
def djb2 (s : Str) : Nat := s.foldl hashStep 5381

/-- `hashContent`: djb2 rendered in lowercase hex (`toString(16)`). -/
def hashContent (content : Str) : Str := Nat.toDigits 16 (djb2 content)

/-- A chunk as produced by the chunk manager. -/
structure Chunk where
  id : Str
  content : Str
  filePath : Str
  fileLink : Str
  chunkIndex : Nat

/-- The embedding API response shape. -/
structure EmbeddingResponse where
  embeddings : List (List ℝ)
  error : Option Str

/-- The embedding network call behind `getEmbeddings`, an external
collaborator: `.error` models a thrown exception (caught by `getEmbeddings`).
It takes the batch's start offset as well, so that distinct calls within one
run may behave independently (the code passes only the texts). -/
abbrev EmbedService := Nat → List Str → Except Str EmbeddingResponse

/-- `getEmbeddings` (`openrouter.ts`): key/empty-input checks, then the
network call with its `try/catch` converting a throw into an `error` field. -/
def getEmbeddings (service : EmbedService) (apiKey : Str) (idx : Nat)
    (texts : List Str) : EmbeddingResponse :=
  if apiKey.isEmpty then ⟨[], some (("API key not set").data)⟩
  else if texts.isEmpty then ⟨[], none⟩
  else match service idx texts with
    | .ok resp => resp
    | .error e => ⟨[], some e⟩

/-- The result record of an embedding operation. -/
structure EmbeddingResult where
  processed : Nat
  skipped : Nat
  failed : Nat
  error : Option Str

/-- The embedding manager's configuration. -/
structure EmbeddingManagerConfig where
  batchSize : Nat
  batchDelayMs : Nat

/-- The inner save loop of `embedChunks`: for each batch item `j`, save the
`j`-th returned embedding if present (counting it processed), otherwise count
it failed. -/
def saveEmbeddings : List (Chunk × Str) → Nat → List (List ℝ) → VectorMap → Nat → Nat →
    Nat × Nat × VectorMap
  | [], _, _, st, p, f => (p, f, st)
  | item :: rest, j, embeddings, st, p, f =>
    match embeddings[j]? with
    | some embedding =>
        saveEmbeddings rest (j + 1) embeddings
          (saveVector st item.1.id embedding item.2 item.1.content item.1.filePath item.1.fileLink)
          (p + 1) f
    | none => saveEmbeddings rest (j + 1) embeddings st p (f + 1)

/-- The batch loop of `embedChunks`: slice off `batchSize` chunks, call the
service once, mark the whole batch failed on a (truthy) batch-level error,
otherwise save the returned embeddings one by one.  The JS loop diverges for
`batchSize ≤ 0` (the default is 20); `max _ 1` totalises that dead case. -/
def processBatches (cfg : EmbeddingManagerConfig) (service : EmbedService) (apiKey : Str) :
    Nat → List (Chunk × Str) → VectorMap → Nat → Nat → Nat × Nat × VectorMap
  | _, [], st, p, f => (p, f, st)
  | i, item :: rest, st, p, f =>
    let bs := max cfg.batchSize 1
    let batch := (item :: rest).take bs
    let response := getEmbeddings service apiKey i (batch.map (fun it => it.1.content))
    if !(falsy response.error) then
      processBatches cfg service apiKey (i + bs) ((item :: rest).drop bs) st p (f + batch.length)
    else
      let pfs := saveEmbeddings batch 0 response.embeddings st p f
      processBatches cfg service apiKey (i + bs) ((item :: rest).drop bs) pfs.2.2 pfs.1 pfs.2.1
termination_by _ remaining => remaining.length
decreasing_by
  all_goals
    simp only [List.length_drop, List.length_cons]
    have h1 : 1 ≤ max cfg.batchSize 1 := le_max_right _ 1
    omega

/-- `embedChunks`: skip chunks whose stored vector is still valid for the
hash of their content, embed the rest in batches, return the counters and
the updated store (the trailing `save()` only persists the store). -/
def embedChunks (cfg : EmbeddingManagerConfig) (service : EmbedService) (apiKey : Str)
    (st : VectorMap) (chunks : List Chunk) : EmbeddingResult × VectorMap :=
  if apiKey.isEmpty then (⟨0, 0, 0, some (("API key not set").data)⟩, st)
  else if chunks.isEmpty then (⟨0, 0, 0, none⟩, st)
  else
    let skippedCount := (chunks.filter (fun c => hasValidVector st c.id (hashContent c.content))).length
    let chunksToEmbed := (chunks.filter (fun c => !hasValidVector st c.id (hashContent c.content))).map
      (fun c => (c, hashContent c.content))
    if chunksToEmbed.isEmpty then (⟨0, skippedCount, 0, none⟩, st)
    else
      let pfs := processBatches cfg service apiKey 0 chunksToEmbed st 0 0
      (⟨pfs.1, skippedCount, pfs.2.1, none⟩, pfs.2.2)

/-- `newPath.replace(/\.md$/, "")`. -/
def stripMdSuffix (p : Str) : Str :=
  if (['.', 'm', 'd'] : Str).isSuffixOf p then p.take (p.length - 3) else p

/-- `path.split("/").pop() ?? path` (the default is never reached: a split is
never empty). -/
def basenameOf (p : Str) : Str := ((splitOnCL ['/'] p).getLast?).getD p

/-- `renameFileVectors`: re-insert every record stored under an
`oldPath::`-prefixed id under the corresponding `newPath::`-prefixed id (with
the file path and recomputed file link, everything else taken from the stored
record, possibly-missing fields included), then delete the old ids. -/
def renameFileVectors (st : VectorMap) (oldPath newPath : Str) : VectorMap :=
  let oldIds := getChunkIdsForFile st oldPath
  if oldIds.isEmpty then st
  else
    let newFileLink := ('[' :: '[' :: basenameOf (stripMdSuffix newPath)) ++ [']', ']']
    let st1 := oldIds.foldl (fun acc oldId =>
      match getVector acc oldId with
      | some stored =>
          mapSet acc (newPath ++ [':', ':'] ++ oldId.drop (oldPath.length + 2))
            ⟨stored.vector, stored.contentHash, stored.content, some newPath, some newFileLink⟩
      | none => acc) st
    deleteVectors st1 oldIds

/-- `split(/\s+/)` (fuelled as in `splitOnAux`): split on maximal whitespace
runs, with the empty tokens JS produces at the ends. -/
def wsSplitAux : Nat → Str → List Str
  | 0, s => [s]
  | _ + 1, [] => [[]]
  | fuel + 1, c :: cs =>
    if Char.isWhitespace c then [] :: wsSplitAux fuel (cs.dropWhile Char.isWhitespace)
    else match wsSplitAux fuel cs with
      | [] => [[c]]
      | t :: ts => (c :: t) :: ts

/-- `query.split(/\s+/)`. -/
def wsSplit (s : Str) : List Str := wsSplitAux s.length s

/-- `calculateKeywordScore`: the fraction of the query's lowercased tokens of
length at least 3 that occur in the lowercased text; `0` when no tokens
remain. -/
noncomputable def calculateKeywordScore (query text : Str) : ℝ :=
  if ((wsSplit (query.map Char.toLower)).filter (fun w => 3 ≤ w.length)).isEmpty then 0
  else ((((wsSplit (query.map Char.toLower)).filter (fun w => 3 ≤ w.length)).filter
      (fun k => decide (k <:+: text.map Char.toLower))).length : ℝ) /
    ((((wsSplit (query.map Char.toLower)).filter (fun w => 3 ≤ w.length)).length : ℝ))

/-- `getQueryEmbedding`: a single-item embedding call; `none` on a missing
key, a (truthy) service error, or an empty embedding list. -/
def getQueryEmbedding (service : EmbedService) (apiKey : Str) (queryText : Str) :
    Option (List ℝ) :=
  if apiKey.isEmpty then none
  else
    let response := getEmbeddings service apiKey 0 [queryText]
    if !(falsy response.error) || response.embeddings.isEmpty then none
    else response.embeddings[0]?

/-- Steps 2–3 of the hybrid `search`: blend each candidate's vector score
with its keyword score (70% / 30%), re-sort descending, return the first
`limit`. -/
noncomputable def hybridRerank (queryText : Str) (limit : Nat)
    (candidates : List SearchResult) : List SearchResult :=
  (sortByScoreDesc (candidates.map (fun candidate =>
    ⟨candidate.chunkId, candidate.content, candidate.filePath, candidate.fileLink,
      candidate.score * 0.7 + calculateKeywordScore queryText candidate.content * 0.3⟩))).take
    limit

/-- `EmbeddingManager.search`: embed the query (empty result on failure),
fetch `poolSize` candidates from the vector store, rerank. -/
noncomputable def EmbeddingManager.search (service : EmbedService) (apiKey : Str)
    (m : VectorMap) (excludedFolders : List Str) (oracle : Str → Option FileCache)
    (queryText : Str) (limit poolSize : Nat) (opts : Option SearchOptions) :
    List SearchResult :=
  match getQueryEmbedding service apiKey queryText with
  | none => []
  | some queryVector =>
    if (VectorStore.search m excludedFolders oracle queryVector poolSize opts).isEmpty then []
    else hybridRerank queryText limit
      (VectorStore.search m excludedFolders oracle queryVector poolSize opts)

/-! ## RAG engine (`rag-engine.ts`) -/

/-- Chat roles. -/
inductive Role
  | system
  | user
  | assistant

/-- A chat message. -/
structure ChatMessage where
  role : Role
  content : Str

/-- The chat-completion response shape of `sendChatMessage`. -/
structure LLMResponse where
  content : Str
  error : Option Str

/-- The chat network call, an external collaborator: `.error` models a
thrown exception, `.ok none` a response with no message content. -/
abbrev ChatService := List ChatMessage → Except Str (Option Str)

/-- `sendChatMessage` (`openrouter.ts`): key check, then the network call
with its `try/catch`; a missing or empty response content becomes the
"No response from model" error. -/
def sendChatMessage (net : ChatService) (apiKey : Str) (messages : List ChatMessage) :
    LLMResponse :=
  if apiKey.isEmpty then ⟨[], some (("API key not set").data)⟩
  else match net messages with
    | .ok (some content) =>
        if content.isEmpty then ⟨[], some (("No response from model").data)⟩
        else ⟨content, none⟩
    | .ok none => ⟨[], some (("No response from model").data)⟩
    | .error e => ⟨[], some e⟩

/-- `", "`-join. -/
def joinComma (xs : List Str) : Str := List.intercalate (',' :: [' ']) xs

/-- The base system prompt of `buildSystemPrompt`. -/
def basePromptText : Str :=
  ("You are an Obsidian assistant. Answer the user\x27s question based on the context provided from their notes.\n\nCRITICAL INSTRUCTIONS:\n1. You MUST cite your sources using the exact WikiLink format provided (e.g., [[Note Name]]).\n2. Do NOT use Markdown links like [Title](path).\n3. When referencing information, always mention where it came from using the WikiLink.\n4. If the context doesn\x27t contain relevant information, say so honestly.\n5. Be concise but thorough in your answers.").data

/-- `buildSystemPrompt`.  `fmt` models the JS decimal rendering
`(score * 100).toFixed(1)` (floating-point formatting is delegated to the
runtime, so it is a parameter here). -/
def buildSystemPrompt (fmt : ℝ → Str) (searchResults : List SearchResult)
    (searchOptions : Option SearchOptions) : Str :=
  let basePrompt :=
    match searchOptions with
    | none => basePromptText
    | some options =>
      let scopeParts :=
        (if !(options.files.getD []).isEmpty then
          [("files: ").data ++ joinComma ((options.files.getD []).map
            (fun f => ((splitOnCL ['/'] f).getLast?).getD []))] else [])
        ++ (if !(options.folders.getD []).isEmpty then
          [("folders: ").data ++ joinComma (options.folders.getD [])] else [])
        ++ (if !(options.tags.getD []).isEmpty then
          [("tags: ").data ++ joinComma (options.tags.getD [])] else [])
      if !scopeParts.isEmpty then
        basePromptText
          ++ ("\n\nIMPORTANT: The user has explicitly selected specific context to focus on (").data
          ++ List.intercalate (';' :: [' ']) scopeParts
          ++ ("). Prioritize information from these sources.").data
      else basePromptText
  if searchResults.isEmpty then
    basePrompt
      ++ ("\n\nNote: No relevant context was found in the vault for this query. Answer based on your general knowledge, but inform the user that no specific notes were found.").data
  else
    basePrompt ++ ("\n\n--- CONTEXT FROM YOUR NOTES ---\n").data
      ++ (searchResults.map (fun result =>
            ("\nSource: ").data ++ result.fileLink ++ (" (relevance: ").data
              ++ fmt (result.score * 100) ++ ("%)\n").data
              ++ result.content ++ ("\n---\n").data)).flatten

/-- The retrieval settings read through the settings getter (each field read
with `?? default`). -/
structure RagSettings where
  retrievalPoolSize : Option Nat
  maxContextChunks : Option Nat

/-- The configuration-error answer of `ask`. -/
def apiKeyErrorText : Str :=
  ("Error: API key not set. Please configure it in Settings → obsidian note+.").data

/-- `RAGEngine.ask`: reject without a key; hybrid search; prompt assembly;
one chat call; a (truthy) chat error is returned as an `Error:`-prefixed
answer string. -/
noncomputable def ask (fmt : ℝ → Str) (service : EmbedService) (net : ChatService)
    (apiKey : Str) (m : VectorMap) (excludedFolders : List Str)
    (oracle : Str → Option FileCache) (getSettings : Option RagSettings)
    (userQuery : Str) (conversationHistory : List ChatMessage)
    (searchOptions : Option SearchOptions) : Str :=
  if apiKey.isEmpty then apiKeyErrorText
  else
    let poolSize := (getSettings.bind (fun s => s.retrievalPoolSize)).getD 50
    let maxChunks := (getSettings.bind (fun s => s.maxContextChunks)).getD 15
    let searchResults := EmbeddingManager.search service apiKey m excludedFolders oracle
      userQuery maxChunks poolSize searchOptions
    let systemPrompt := buildSystemPrompt fmt searchResults searchOptions
    let messages := (⟨Role.system, systemPrompt⟩ : ChatMessage)
      :: conversationHistory ++ [⟨Role.user, userQuery⟩]
    let response := sendChatMessage net apiKey messages
    match response.error with
    | some e => if e.isEmpty then response.content else ("Error: ").data ++ e
    | none => response.content

/-- The claim C5 states for the exclusion check, written from the spec's own
words, for comparison with `isExcluded`: excluded iff the path starts with
`folder + "/"` for some configured folder, or exactly equals the folder. -/
def specClaimExcluded (excludedFolders : List Str) (filePath : Str) : Prop :=
  ∃ folder ∈ excludedFolders, (folder ++ ['/']) <+: filePath ∨ filePath = folder

/-- Example fixture for the hybrid-search claim: an embedding service that
answers every call with the one-dimensional embedding `[1]`. -/
def exService : EmbedService := fun _ _ => Except.ok ⟨[[(1 : ℝ)]], none⟩

/-- Example fixture: two records with the same unit embedding, one whose
content carries the query keyword and one that does not. -/
def exStore : VectorMap :=
  [((("a.md::0").data : Str), ⟨[(1 : ℝ)], ("h1").data, some (("apple").data),
      some (("a.md").data), some (("[[a]]").data)⟩),
   ((("b.md::0").data : Str), ⟨[(1 : ℝ)], ("h2").data, some (("zzz").data),
      some (("b.md").data), some (("[[b]]").data)⟩)]

/-- The vector-stage result for the first example record. -/
def exR1 : SearchResult :=
  ⟨("a.md::0").data, ("apple").data, ("a.md").data, ("[[a]]").data, 1⟩

/-- The vector-stage result for the second example record. -/
def exR2 : SearchResult :=
  ⟨("b.md::0").data, ("zzz").data, ("b.md").data, ("[[b]]").data, 1⟩

/-! # Theorems

Helper lemmas first, then, for each claim `Cn`, its theorem(s). -/

/-- Trimming never lengthens a string. -/
theorem trimCL_length_le (s : Str) : (trimCL s).length ≤ s.length := by
  calc (trimCL s).length
      = ((s.dropWhile Char.isWhitespace).reverse.dropWhile Char.isWhitespace).length := by
        simp [trimCL]
    _ ≤ (s.dropWhile Char.isWhitespace).reverse.length := (List.dropWhile_suffix _).length_le
    _ = (s.dropWhile Char.isWhitespace).length := by simp
    _ ≤ s.length := (List.dropWhile_suffix _).length_le

/-- The overlap seed has at most `chunkOverlap` characters. -/
theorem getOverlapText_length_le (co : Nat) (s : Str) : (getOverlapText co s).length ≤ co := by
  unfold getOverlapText
  split
  · omega
  · simp only [List.length_drop]; omega

/-- Every chunk the merge loop emits has at most `chunkSize + chunkOverlap`
characters, provided the recursive splitter does and the accumulator and
current chunk are in bounds. -/
theorem mergeLoop_length_le (cs co : Nat) (sep : Str) (recurse : Str → List Str)
    (hrec : ∀ t, ∀ c ∈ recurse t, c.length ≤ cs + co) :
    ∀ (splits : List Str) (cur : Str) (acc : List Str),
      (∀ c ∈ acc, c.length ≤ cs + co) → cur.length ≤ cs + co →
      ∀ c ∈ mergeLoop cs co sep recurse splits cur acc, c.length ≤ cs + co := by
  intro splits
  induction splits with
  | nil =>
    intro cur acc hacc hcur c hc
    simp only [mergeLoop] at hc
    split at hc
    · rcases List.mem_append.mp hc with h | h
      · exact hacc c h
      · rcases List.mem_singleton.mp h with rfl
        exact le_trans (trimCL_length_le cur) hcur
    · exact hacc c hc
  | cons s rest ih =>
    intro cur acc hacc hcur c hc
    have hacc1 : ∀ c ∈ (if !(trimCL cur).isEmpty then acc ++ [trimCL cur] else acc),
        c.length ≤ cs + co := by
      intro c hc
      split at hc
      · rcases List.mem_append.mp hc with h | h
        · exact hacc c h
        · rcases List.mem_singleton.mp h with rfl
          exact le_trans (trimCL_length_le cur) hcur
      · exact hacc c hc
    simp only [mergeLoop] at hc
    generalize hsws : (if sep ≠ [] then s ++ sep else s) = sws at hc
    by_cases h1 : cs < cur.length + sws.length
    · rw [if_pos h1] at hc
      by_cases h2 : cs < sws.length
      · rw [if_pos h2] at hc
        exact ih _ _ (fun c hcm => (List.mem_append.mp hcm).elim (hacc1 c) (hrec s c))
          (by simp) c hc
      · rw [if_neg h2] at hc
        refine ih _ _ hacc1 ?_ c hc
        have h3 := getOverlapText_length_le co cur
        simp only [List.length_append]
        omega
    · rw [if_neg h1] at hc
      refine ih _ _ hacc ?_ c hc
      simp only [List.length_append]
      omega

/-- Every chunk `splitTextRecursive` emits has at most
`chunkSize + chunkOverlap` characters. -/
theorem splitTextRec_length_le (cs co : Nat) :
    ∀ (fuel : Nat) (text : Str) (seps : List Str),
      ∀ c ∈ splitTextRec cs co fuel text seps, c.length ≤ cs + co := by
  intro fuel
  induction fuel with
  | zero => intro text seps c hc; simp [splitTextRec] at hc
  | succ fuel ih =>
    intro text seps c hc
    simp only [splitTextRec] at hc
    split at hc
    · rename_i hshort
      split at hc
      · rcases List.mem_singleton.mp hc with rfl
        omega
      · simp at hc
    · exact mergeLoop_length_le cs co _ _ (fun t c h => ih t _ c h) _ [] []
        (by simp) (by simp) c hc

/-- **C1 (amended).**  Every chunk returned by
`RecursiveCharacterTextSplitter.splitText` has length at most
`chunkSize + chunkOverlap` — for any configuration, with no exception.  (The
claimed bound `chunkSize` itself fails: a chunk seeded with the overlap of
the chunk closed before it may exceed `chunkSize` by up to `chunkOverlap`;
see `C1_counterexample`.) -/
theorem C1_splitText_length_bound (cs co : Nat) (text : Str) :
    (splitText cs co text).Forall (fun c => c.length ≤ cs + co) := by
  rw [List.forall_iff_forall_mem]
  exact fun c hc => splitTextRec_length_le cs co _ text separators c hc

/-- **C1, counterexample to the claim as stated.**  With `chunkSize = 10`,
`chunkOverlap = 4` (a legal configuration, `4 < 10`) and an input in which a
separator (`" "`) does occur, `splitText` returns chunks of length `12 > 10`:
the overlap-seeded chunks exceed `chunkSize`. -/
theorem C1_counterexample :
    splitText 10 4 (("aaaaaaaa bbbbbbbb cccccccc").data) =
      [("aaaaaaaa").data, ("aaa bbbbbbbb").data, ("bbb cccccccc").data] ∧
    ¬ (("aaa bbbbbbbb").data).length ≤ 10 := by
  constructor
  · decide
  · decide

/-- A string trims to `[]` iff it is all whitespace. -/
theorem trimCL_eq_nil_iff {s : Str} : trimCL s = [] ↔ ∀ c ∈ s, Char.isWhitespace c := by
  unfold trimCL
  rw [List.reverse_eq_nil_iff, List.dropWhile_eq_nil_iff]
  constructor
  · intro h c hcs
    rw [← List.takeWhile_append_dropWhile (p := Char.isWhitespace) (l := s)] at hcs
    rcases List.mem_append.mp hcs with h1 | h1
    · exact List.mem_takeWhile_imp h1
    · exact h c (List.mem_reverse.mpr h1)
  · intro h c hcrev
    exact h c ((List.dropWhile_sublist _).subset (List.mem_reverse.mp hcrev))

/-- Characters of the pieces of `splitOnAux` come from the input. -/
theorem splitOnAux_mem_subset (c0 : Char) (sr : Str) :
    ∀ (fuel : Nat) (s piece : Str), piece ∈ splitOnAux c0 sr fuel s → ∀ c ∈ piece, c ∈ s := by
  intro fuel
  induction fuel with
  | zero =>
    intro s piece hp c hcp
    simp only [splitOnAux, List.mem_singleton] at hp
    exact hp ▸ hcp
  | succ fuel ih =>
    intro s piece hp c hcp
    match s with
    | [] =>
      simp only [splitOnAux, List.mem_singleton] at hp
      subst hp
      simp at hcp
    | a :: as =>
      simp only [splitOnAux] at hp
      split at hp
      · rcases List.mem_cons.mp hp with rfl | hp'
        · simp at hcp
        · exact List.drop_subset _ _ (ih _ piece hp' c hcp)
      · rcases hsp : splitOnAux c0 sr fuel as with _ | ⟨p, ps⟩
        · rw [hsp] at hp
          rcases List.mem_singleton.mp hp with rfl
          rcases List.mem_singleton.mp hcp with rfl
          exact List.mem_cons_self _ _
        · rw [hsp] at hp
          rcases List.mem_cons.mp hp with rfl | hp'
          · rcases List.mem_cons.mp hcp with rfl | hcp'
            · exact List.mem_cons_self _ _
            · exact List.mem_cons_of_mem _ (ih _ p (hsp ▸ List.mem_cons_self _ _) c hcp')
          · exact List.mem_cons_of_mem _
              (ih _ piece (hsp ▸ List.mem_cons_of_mem _ hp') c hcp)

/-- Characters of the pieces of `splitOnCL` come from the input. -/
theorem splitOnCL_mem_subset (sep : Str) (s piece : Str) (hp : piece ∈ splitOnCL sep s) :
    ∀ c ∈ piece, c ∈ s := by
  match sep with
  | [] =>
    simp only [splitOnCL, List.mem_singleton] at hp
    exact fun c hc => hp ▸ hc
  | c0 :: sr => exact splitOnAux_mem_subset c0 sr _ s piece hp

/-- Characters of the character windows come from the input. -/
theorem charWindowsAux_mem_subset (cs step : Nat) :
    ∀ (fuel : Nat) (s piece : Str), piece ∈ charWindowsAux cs step fuel s → ∀ c ∈ piece, c ∈ s := by
  intro fuel
  induction fuel with
  | zero => intro s piece hp; simp [charWindowsAux] at hp
  | succ fuel ih =>
    intro s piece hp c hcp
    match s with
    | [] => simp [charWindowsAux] at hp
    | a :: as =>
      simp only [charWindowsAux] at hp
      rcases List.mem_cons.mp hp with rfl | hp'
      · exact List.take_subset _ _ hcp
      · exact List.drop_subset _ _ (ih _ piece hp' c hcp)

/-- If the separator does not occur in the text, splitting leaves the text in
one piece. -/
theorem splitOnAux_of_no_occurrence (c0 : Char) (sr : Str) :
    ∀ (fuel : Nat) (s : Str), ¬ ((c0 :: sr) <:+: s) → splitOnAux c0 sr fuel s = [s] := by
  intro fuel
  induction fuel with
  | zero => intro s _; rfl
  | succ fuel ih =>
    intro s hni
    match s with
    | [] => rfl
    | a :: as =>
      simp only [splitOnAux]
      rw [if_neg (fun hpre => hni (List.isPrefixOf_iff_prefix.mp hpre).isInfix)]
      rw [ih as (fun h => hni (h.trans (List.suffix_cons a as).isInfix))]

/-- The overlap seed is made of characters of the chunk it is taken from. -/
theorem getOverlapText_subset (co : Nat) (s : Str) : ∀ c ∈ getOverlapText co s, c ∈ s := by
  unfold getOverlapText
  split
  · exact fun c h => h
  · exact fun c h => List.drop_subset _ _ h

/-- On all-whitespace input, the merge loop emits nothing: every candidate
chunk trims to empty. -/
theorem mergeLoop_allW (cs co : Nat) (sep : Str) (recurse : Str → List Str)
    (hsep : ∀ c ∈ sep, Char.isWhitespace c)
    (hrec : ∀ t, (∀ c ∈ t, Char.isWhitespace c) → recurse t = []) :
    ∀ (splits : List Str) (cur : Str) (acc : List Str),
      (∀ p ∈ splits, ∀ c ∈ p, Char.isWhitespace c) →
      (∀ c ∈ cur, Char.isWhitespace c) →
      mergeLoop cs co sep recurse splits cur acc = acc := by
  intro splits
  induction splits with
  | nil =>
    intro cur acc _ hcur
    simp [mergeLoop, trimCL_eq_nil_iff.mpr hcur]
  | cons s rest ih =>
    intro cur acc hsplits hcur
    have hs : ∀ c ∈ s, Char.isWhitespace c := hsplits s (List.mem_cons_self _ _)
    have hrest : ∀ p ∈ rest, ∀ c ∈ p, Char.isWhitespace c :=
      fun p hp => hsplits p (List.mem_cons_of_mem _ hp)
    have hsws : ∀ c ∈ (if sep ≠ [] then s ++ sep else s), Char.isWhitespace c := by
      split
      · intro c hc; rcases List.mem_append.mp hc with h | h
        exacts [hs c h, hsep c h]
      · exact hs
    simp only [mergeLoop, trimCL_eq_nil_iff.mpr hcur, List.isEmpty_nil, Bool.not_true,
      Bool.false_eq_true, if_false, hrec s hs, List.append_nil]
    generalize hg : (if sep ≠ [] then s ++ sep else s) = sws
    have hswsw : ∀ c ∈ sws, Char.isWhitespace c := hg ▸ hsws
    split
    · split
      · exact ih [] acc hrest (by simp)
      · exact ih _ acc hrest (fun c hc => (List.mem_append.mp hc).elim
          (fun h => hcur c (getOverlapText_subset co cur c h)) (hswsw c))
    · exact ih _ acc hrest (fun c hc => (List.mem_append.mp hc).elim (hcur c) (hswsw c))

/-- `splitTextRecursive` returns no chunks on all-whitespace input, for any
separator hierarchy and any fuel. -/
theorem splitTextRec_allW (cs co : Nat) :
    ∀ (fuel : Nat) (seps : List Str) (text : Str),
      (∀ c ∈ text, Char.isWhitespace c) → splitTextRec cs co fuel text seps = [] := by
  intro fuel
  induction fuel with
  | zero => intro seps text _; rfl
  | succ fuel ih =>
    intro seps text htext
    by_cases hlen : text.length ≤ cs
    · simp [splitTextRec, hlen, trimCL_eq_nil_iff.mpr htext]
    · simp only [splitTextRec, if_neg hlen]
      cases hidx : seps.findIdx? (sepMatches text) with
      | some i =>
        obtain ⟨hlt, hpi, -⟩ := List.findIdx?_eq_some_iff_getElem.mp hidx
        have hsepw : ∀ c ∈ seps[i], Char.isWhitespace c := by
          rcases (by simpa [sepMatches] using hpi : seps[i] = [] ∨ seps[i] <:+: text) with h | h
          · simp [h]
          · exact fun c hc => htext c (h.subset hc)
        have hsplitsw : ∀ p ∈ splitBySeparator cs co seps[i] text,
            ∀ c ∈ p, Char.isWhitespace c := by
          intro p hp c hc
          unfold splitBySeparator at hp
          split at hp
          · exact htext c (charWindowsAux_mem_subset cs (cs - co) _ text p hp c hc)
          · exact htext c (splitOnCL_mem_subset seps[i] text p (List.mem_of_mem_filter hp) c hc)
        unfold findSeparator
        rw [hidx]
        simp only [List.getElem?_eq_getElem hlt, Option.getD_some]
        exact mergeLoop_allW cs co seps[i] _ hsepw (fun t ht => ih _ t ht) _ [] []
          hsplitsw (by simp)
      | none =>
        have hall := List.findIdx?_eq_none_iff.mp hidx
        unfold findSeparator
        rw [hidx]
        match seps with
        | [] =>
          simp only [List.getLast?_nil, Option.getD_none]
          have hsplitsw : ∀ p ∈ splitBySeparator cs co [] text,
              ∀ c ∈ p, Char.isWhitespace c := by
            intro p hp c hc
            unfold splitBySeparator at hp
            rw [if_pos rfl] at hp
            exact htext c (charWindowsAux_mem_subset cs (cs - co) _ text p hp c hc)
          exact mergeLoop_allW cs co [] _ (by simp) (fun t ht => ih _ t ht) _ [] []
            hsplitsw (by simp)
        | s0 :: srest =>
          have hne : (s0 :: srest : List Str) ≠ [] := by simp
          have hlastm : (s0 :: srest).getLast hne ∈ s0 :: srest := List.getLast_mem hne
          rw [List.getLast?_eq_getLast _ hne]
          simp only [Option.getD_some]
          have hnp := hall _ hlastm
          set sep := (s0 :: srest).getLast hne with hsepdef
          have hsep_ne : sep ≠ [] := by
            intro h
            rw [h] at hnp
            simp [sepMatches] at hnp
          have hsep_ni : ¬ (sep <:+: text) := by
            intro h
            simp [sepMatches, h] at hnp
          obtain ⟨c0, sr, hceq⟩ : ∃ c0 sr, sep = c0 :: sr := by
            cases hc : sep with
            | nil => exact absurd hc hsep_ne
            | cons c0 sr => exact ⟨c0, sr, rfl⟩
          have htext_ne : text ≠ [] := by
            intro h
            exact hlen (by simp [h])
          have hsplits : splitBySeparator cs co sep text = [text] := by
            unfold splitBySeparator
            rw [if_neg hsep_ne, hceq]
            simp only [splitOnCL]
            rw [splitOnAux_of_no_occurrence c0 sr _ text (hceq ▸ hsep_ni)]
            simp [List.isEmpty_iff, htext_ne]
          rw [hsplits]
          simp only [mergeLoop]
          rw [if_pos hsep_ne]
          have hbig : cs < ([] : Str).length + (text ++ sep).length := by
            simp only [List.length_nil, List.length_append]
            omega
          rw [if_pos hbig]
          have hbig2 : cs < (text ++ sep).length := by
            simp only [List.length_append]
            omega
          rw [if_pos hbig2]
          simp only [trimCL, List.dropWhile_nil, List.reverse_nil, List.isEmpty_nil,
            Bool.not_true, Bool.false_eq_true, if_false]
          rw [ih _ text htext]
          simp [mergeLoop]

/-- **C9 (amended).**  For any configuration with `chunkOverlap < chunkSize`:
`splitText` on input that trims to empty (empty or all-whitespace, of any
length) yields no chunks; and on input of length at most `chunkSize` whose
trimmed form is non-empty it yields exactly one chunk — the **original,
untrimmed** text.  (The claim says the single chunk is the trimmed original;
the base case of `splitTextRecursive` pushes `text`, not `text.trim()`; see
`C9_counterexample`.) -/
theorem C9_splitText_small_inputs (cs co : Nat) (text : Str) (hco : co < cs) :
    (trimCL text = [] → splitText cs co text = []) ∧
    (text.length ≤ cs → trimCL text ≠ [] → splitText cs co text = [text]) := by
  constructor
  · intro h
    exact splitTextRec_allW cs co _ separators text (trimCL_eq_nil_iff.mp h)
  · intro hlen hne
    simp only [splitText, splitTextRec, if_pos hlen]
    simp [List.isEmpty_iff, hne]

/-- **C9, witness.**  The amended claim at `chunkSize = 10`,
`chunkOverlap = 4`: all-whitespace input yields `[]`; the short input
`"hi"` yields exactly `["hi"]`. -/
theorem C9_witness :
    (trimCL (("   ").data) = [] ∧ splitText 10 4 (("   ").data) = []) ∧
    (trimCL (("hi").data) ≠ [] ∧ splitText 10 4 (("hi").data) = [("hi").data]) := by
  constructor
  · exact ⟨by decide, (C9_splitText_small_inputs 10 4 (("   ").data) (by norm_num)).1 (by decide)⟩
  · exact ⟨by decide,
      (C9_splitText_small_inputs 10 4 (("hi").data) (by norm_num)).2 (by decide) (by decide)⟩

/-- **C9, counterexample to the claim as stated.**  The input `" hi "` has
length `4 ≤ 10` and trims to `"hi"`, but `splitText` returns the untrimmed
original `" hi "`, not the trimmed text the claim describes. -/
theorem C9_counterexample :
    splitText 10 4 ((" hi ").data) = [(" hi ").data] ∧
    trimCL ((" hi ").data) = ("hi").data ∧ (" hi ").data ≠ ("hi").data := by
  refine ⟨by decide, by decide, by decide⟩

/-- **C5 (amended).**  A path is excluded iff it starts with the trailing-
slash normalisation of some non-empty configured folder (`folder + "/"` when
the folder has no trailing slash, `folder` itself when it has one).  Exact
equality with a folder that has no trailing slash does **not** exclude (see
`C5_counterexample`).  The purge scenario of the claim holds as stated:
purging with excluded folder `"Archive"` deletes exactly the record under
`"Archive/"`, count 1, and leaves `"Archive2/"` and `"Notes/"` untouched. -/
theorem C5_isExcluded_prefix_only :
    (∀ (excludedFolders : List Str) (filePath : Str),
      isExcluded excludedFolders filePath = true ↔
        ∃ folder ∈ excludedFolders, folder ≠ [] ∧
          (if (['/'] : Str).isSuffixOf folder then folder else folder ++ ['/']) <+: filePath) ∧
    ((purgeExcludedVectors [("Archive").data]
        [((("Archive/a.md::0").data : Str), ⟨[], ("h1").data, some (("x").data),
            some (("Archive/a.md").data), some (("[[a]]").data)⟩),
          ((("Archive2/b.md::0").data : Str), ⟨[], ("h2").data, some (("y").data),
            some (("Archive2/b.md").data), some (("[[b]]").data)⟩),
          ((("Notes/c.md::0").data : Str), ⟨[], ("h3").data, some (("z").data),
            some (("Notes/c.md").data), some (("[[c]]").data)⟩)]).1 = 1 ∧
      ((purgeExcludedVectors [("Archive").data]
        [((("Archive/a.md::0").data : Str), ⟨[], ("h1").data, some (("x").data),
            some (("Archive/a.md").data), some (("[[a]]").data)⟩),
          ((("Archive2/b.md::0").data : Str), ⟨[], ("h2").data, some (("y").data),
            some (("Archive2/b.md").data), some (("[[b]]").data)⟩),
          ((("Notes/c.md::0").data : Str), ⟨[], ("h3").data, some (("z").data),
            some (("Notes/c.md").data), some (("[[c]]").data)⟩)]).2.map (fun e => e.1)) =
        [("Archive2/b.md::0").data, ("Notes/c.md::0").data]) := by
  constructor
  · intro excludedFolders filePath
    unfold isExcluded
    rw [List.any_eq_true]
    constructor
    · rintro ⟨folder, hmem, hpred⟩
      by_cases hemp : folder.isEmpty
      · rw [if_pos hemp] at hpred
        exact absurd hpred (by simp)
      · rw [if_neg hemp] at hpred
        refine ⟨folder, hmem, by simpa [List.isEmpty_iff] using hemp, ?_⟩
        rcases Bool.or_eq_true_iff.mp hpred with h | h
        · exact List.isPrefixOf_iff_prefix.mp h
        · split
          · rename_i hslash
            exact ((List.prefix_append folder ['/']).trans
              (List.isPrefixOf_iff_prefix.mp h))
          · exact List.isPrefixOf_iff_prefix.mp h
    · rintro ⟨folder, hmem, hne, hpre⟩
      refine ⟨folder, hmem, ?_⟩
      rw [if_neg (by simpa [List.isEmpty_iff] using hne)]
      exact Bool.or_eq_true_iff.mpr (Or.inl (List.isPrefixOf_iff_prefix.mpr hpre))
  · exact ⟨by decide, by decide⟩

/-- **C5, counterexample to the claim as stated.**  The claim's exclusion
predicate holds for the path `"Archive"` with excluded folder `"Archive"`
(exact equality), but `isExcluded` returns `false` there: both of its
disjuncts test a `"Archive/"`-prefix, which the bare path `"Archive"` does
not have. -/
theorem C5_counterexample :
    specClaimExcluded [("Archive").data] (("Archive").data) ∧
    isExcluded [("Archive").data] (("Archive").data) = false :=
  ⟨⟨("Archive").data, by simp, Or.inr rfl⟩, by decide⟩

/-- For colon-free paths `p`, `q`, a chunk id built over `q` can only carry
the id prefix of `p` when `p = q`: the `"::"` delimiter is unambiguous. -/
theorem colon_sep_prefix_eq :
    ∀ (p q r : Str), ':' ∉ p → ':' ∉ q →
      (p ++ [':', ':']) <+: (q ++ [':', ':'] ++ r) → p = q := by
  intro p
  induction p with
  | nil =>
    intro q r _ hq h
    match q with
    | [] => rfl
    | c :: q' =>
      rw [List.nil_append] at h
      rcases (List.cons_prefix_cons.mp h) with ⟨hc, -⟩
      exact absurd (List.mem_cons_self c q') (by rw [← hc] at hq ⊢; simpa using hq)
  | cons a p' ih =>
    intro q r hp hq h
    match q with
    | [] =>
      rw [List.cons_append, List.nil_append] at h
      rcases List.cons_prefix_cons.mp h with ⟨ha, -⟩
      exact absurd (show ':' ∈ a :: p' by rw [← ha]; exact List.mem_cons_self a p') hp
    | b :: q' =>
      rw [List.cons_append] at h
      rw [List.cons_append, List.cons_append] at h
      rcases List.cons_prefix_cons.mp h with ⟨rfl, h'⟩
      have hp' : ':' ∉ p' := fun hm => hp (List.mem_cons_of_mem _ hm)
      have hq' : ':' ∉ q' := fun hm => hq (List.mem_cons_of_mem _ hm)
      rw [ih q' r hp' hq' (by simpa using h')]

/-- A lookup skips over an appended block none of whose keys match. -/
theorem getVector_append_right (st1 st2 : VectorMap) (k : Str)
    (h : ∀ e ∈ st1, e.1 ≠ k) : getVector (st1 ++ st2) k = getVector st2 k := by
  unfold getVector
  rw [List.find?_append]
  have : st1.find? (fun e => e.1 == k) = none :=
    List.find?_eq_none.mpr (fun e he => by simpa using h e he)
  rw [this, Option.none_or]

/-- A lookup is unchanged by appending a record with a different key. -/
theorem getVector_append_singleton_ne (st : VectorMap) (k : Str) (v : StoredVector)
    (id : Str) (h : id ≠ k) : getVector (st ++ [(k, v)]) id = getVector st id := by
  unfold getVector
  rw [List.find?_append]
  cases hf : st.find? (fun e => e.1 == id) with
  | none =>
    have hk : (k == id) = false := beq_eq_false_iff_ne.mpr (Ne.symm h)
    simp [List.find?, hk]
  | some e => simp [hf]

/-- `Map.set` with a fresh key appends. -/
theorem mapSet_fresh (st : VectorMap) (k : Str) (v : StoredVector)
    (h : ∀ e ∈ st, e.1 ≠ k) : mapSet st k v = st ++ [(k, v)] := by
  have hany : st.any (fun e => e.1 == k) = false := by
    rw [List.any_eq_false]
    intro e he
    simpa using h e he
  unfold mapSet
  rw [hany]
  simp

/-- All-`some` `filterMap` preserves length. -/
theorem filterMap_allSome_length {α β : Type} (g : α → Option β) :
    ∀ (ids : List α), (∀ id ∈ ids, (g id).isSome) → (ids.filterMap g).length = ids.length := by
  intro ids
  induction ids with
  | nil => intro _; rfl
  | cons id0 rest ih =>
    intro h
    rcases Option.isSome_iff_exists.mp (h id0 (List.mem_cons_self _ _)) with ⟨b, hb⟩
    rw [List.filterMap_cons, hb]
    simp only [List.length_cons]
    rw [ih (fun id hid => h id (List.mem_cons_of_mem _ hid))]

/-- The re-insertion fold of `renameFileVectors`, under freshness and
injectivity of the new ids, appends one renamed record per (found) old id. -/
theorem rename_foldl_eq (oldPath newPath newFileLink : Str) :
    ∀ (ids : List Str) (st m : VectorMap),
      (∀ id ∈ ids, getVector st id = getVector m id) →
      (∀ id ∈ ids, ∀ e ∈ st, e.1 ≠ newPath ++ [':', ':'] ++ id.drop (oldPath.length + 2)) →
      (∀ id1 ∈ ids, ∀ id2 ∈ ids, id1 ≠ newPath ++ [':', ':'] ++ id2.drop (oldPath.length + 2)) →
      (∀ id1 ∈ ids, ∀ id2 ∈ ids,
        newPath ++ [':', ':'] ++ id1.drop (oldPath.length + 2) =
          newPath ++ [':', ':'] ++ id2.drop (oldPath.length + 2) → id1 = id2) →
      ids.Nodup →
      (ids.foldl (fun acc oldId =>
        match getVector acc oldId with
        | some stored =>
            mapSet acc (newPath ++ [':', ':'] ++ oldId.drop (oldPath.length + 2))
              ⟨stored.vector, stored.contentHash, stored.content, some newPath, some newFileLink⟩
        | none => acc) st)
      = st ++ ids.filterMap (fun id => (getVector m id).map (fun stored =>
          (newPath ++ [':', ':'] ++ id.drop (oldPath.length + 2),
           (⟨stored.vector, stored.contentHash, stored.content, some newPath,
             some newFileLink⟩ : StoredVector)))) := by
  intro ids
  induction ids with
  | nil => intro st m _ _ _ _ _; simp
  | cons id0 rest ih =>
    intro st m hlook hfresh hdisj hinj hnd
    have hm0 := hlook id0 (List.mem_cons_self _ _)
    rw [List.foldl_cons]
    cases h0 : getVector m id0 with
    | none =>
      rw [hm0, h0]
      rw [ih st m (fun id hid => hlook id (List.mem_cons_of_mem _ hid))
        (fun id hid => hfresh id (List.mem_cons_of_mem _ hid))
        (fun i1 h1 i2 h2 => hdisj i1 (List.mem_cons_of_mem _ h1) i2 (List.mem_cons_of_mem _ h2))
        (fun i1 h1 i2 h2 => hinj i1 (List.mem_cons_of_mem _ h1) i2 (List.mem_cons_of_mem _ h2))
        (List.Nodup.of_cons hnd)]
      simp [List.filterMap_cons, h0]
    | some sv =>
      simp only [hm0, h0]
      have hfr0 := hfresh id0 (List.mem_cons_self _ _)
      rw [mapSet_fresh _ _ _ hfr0]
      have hstep := ih (st ++ [(newPath ++ [':', ':'] ++ id0.drop (oldPath.length + 2),
          (⟨sv.vector, sv.contentHash, sv.content, some newPath, some newFileLink⟩ : StoredVector))]) m
        ?_ ?_ ?_ ?_ (List.Nodup.of_cons hnd)
      · rw [hstep, List.filterMap_cons, h0]
        simp [List.append_assoc]
      · -- lookups of the remaining old ids are unaffected by the appended record
        intro id hid
        have hne0 : id ≠ newPath ++ [':', ':'] ++ id0.drop (oldPath.length + 2) :=
          hdisj id (List.mem_cons_of_mem _ hid) id0 (List.mem_cons_self _ _)
        rw [getVector_append_singleton_ne st _ _ id hne0]
        exact hlook id (List.mem_cons_of_mem _ hid)
      · -- the remaining new ids are still fresh
        intro id hid e he
        rcases List.mem_append.mp he with h | h
        · exact hfresh id (List.mem_cons_of_mem _ hid) e h
        · rcases List.mem_singleton.mp h with rfl
          intro hkey
          have : id = id0 := hinj id (List.mem_cons_of_mem _ hid) id0
            (List.mem_cons_self _ _) hkey.symm
          exact (List.nodup_cons.mp hnd).1 (this ▸ hid)
      · exact fun i1 h1 i2 h2 =>
          hdisj i1 (List.mem_cons_of_mem _ h1) i2 (List.mem_cons_of_mem _ h2)
      · exact fun i1 h1 i2 h2 =>
          hinj i1 (List.mem_cons_of_mem _ h1) i2 (List.mem_cons_of_mem _ h2)

/-- Lookup of a renamed id in the renamed block: the record of the matching
old id, provided the new ids of the block are pairwise distinct. -/
theorem getVector_renamed_block (oldPath newPath newFileLink : Str) (m : VectorMap) :
    ∀ (ids : List Str),
      (∀ id1 ∈ ids, ∀ id2 ∈ ids,
        newPath ++ [':', ':'] ++ id1.drop (oldPath.length + 2) =
          newPath ++ [':', ':'] ++ id2.drop (oldPath.length + 2) → id1 = id2) →
      ids.Nodup →
      ∀ id ∈ ids, ∀ sv, getVector m id = some sv →
        getVector (ids.filterMap (fun i => (getVector m i).map (fun stored =>
            (newPath ++ [':', ':'] ++ i.drop (oldPath.length + 2),
             (⟨stored.vector, stored.contentHash, stored.content, some newPath,
               some newFileLink⟩ : StoredVector)))))
          (newPath ++ [':', ':'] ++ id.drop (oldPath.length + 2)) =
        some ⟨sv.vector, sv.contentHash, sv.content, some newPath, some newFileLink⟩ := by
  intro ids
  induction ids with
  | nil => intro _ _ id hid; simp at hid
  | cons id0 rest ih =>
    intro hinj hnd id hid sv hsv
    rcases List.mem_cons.mp hid with rfl | hid'
    · rw [List.filterMap_cons, hsv]
      simp [getVector, List.find?]
    · rw [List.filterMap_cons]
      have hne : newPath ++ [':', ':'] ++ id.drop (oldPath.length + 2) ≠
          newPath ++ [':', ':'] ++ id0.drop (oldPath.length + 2) := by
        intro h
        have : id = id0 := hinj id (List.mem_cons_of_mem _ hid') id0 (List.mem_cons_self _ _) h
        exact (List.nodup_cons.mp hnd).1 (this ▸ hid')
      have hrest := ih
        (fun i1 h1 i2 h2 => hinj i1 (List.mem_cons_of_mem _ h1) i2 (List.mem_cons_of_mem _ h2))
        (List.Nodup.of_cons hnd) id hid' sv hsv
      cases h0 : getVector m id0 with
      | none => exact hrest
      | some sv0 =>
        simp only [Option.map_some']
        unfold getVector at hrest ⊢
        rw [List.find?]
        have : ((newPath ++ [':', ':'] ++ id0.drop (oldPath.length + 2),
            (⟨sv0.vector, sv0.contentHash, sv0.content, some newPath,
              some newFileLink⟩ : StoredVector)).1 ==
            newPath ++ [':', ':'] ++ id.drop (oldPath.length + 2)) = false :=
          beq_eq_false_iff_ne.mpr (Ne.symm hne)
        rw [this]
        exact hrest

/-- **C7 (amended).**  For a store with unique keys, when `newPath` holds no
stored vectors, `oldPath ≠ newPath`, and neither path contains a colon (so
that the `"<path>::<ordinal>"` id format is unambiguous — see
`C7_counterexample` for why this is needed), `renameFileVectors` re-inserts
each vector stored under an `oldPath::` id under the corresponding
`newPath::` id with its embedding vector, content hash and content
unchanged and only the file path and file link recomputed; afterwards
`getChunkIdsForFile newPath` has the count `getChunkIdsForFile oldPath` had
before, and `getChunkIdsForFile oldPath` is empty. -/
theorem C7_rename_preserves_vectors (m : VectorMap) (oldPath newPath : Str)
    (hnodup : (m.map (fun e => e.1)).Nodup)
    (hnew : getChunkIdsForFile m newPath = [])
    (hne : oldPath ≠ newPath)
    (hcold : ':' ∉ oldPath) (hcnew : ':' ∉ newPath) :
    (getChunkIdsForFile (renameFileVectors m oldPath newPath) newPath).length =
      (getChunkIdsForFile m oldPath).length ∧
    getChunkIdsForFile (renameFileVectors m oldPath newPath) oldPath = [] ∧
    (∀ oldId ∈ getChunkIdsForFile m oldPath, ∀ sv, getVector m oldId = some sv →
      getVector (renameFileVectors m oldPath newPath)
          (newPath ++ [':', ':'] ++ oldId.drop (oldPath.length + 2)) =
        some ⟨sv.vector, sv.contentHash, sv.content, some newPath,
          some (('[' :: '[' :: basenameOf (stripMdSuffix newPath)) ++ [']', ']'])⟩) := by
  have hnew' : ∀ k ∈ m.map (fun e : Str × StoredVector => e.1),
      ((newPath ++ [':', ':']).isPrefixOf k) = false := by
    intro k hk
    have h := List.filter_eq_nil_iff.mp hnew k hk
    rw [← Bool.not_eq_true]
    exact h
  set nfl := ('[' :: '[' :: basenameOf (stripMdSuffix newPath)) ++ [']', ']'] with hnfldef
  set oldIds := getChunkIdsForFile m oldPath with holdIds
  by_cases hoi : oldIds = []
  · have hgo : getChunkIdsForFile m oldPath = [] := by rw [← holdIds]; exact hoi
    have hr : renameFileVectors m oldPath newPath = m := by
      unfold renameFileVectors
      rw [hgo]
      simp
    refine ⟨?_, ?_, ?_⟩
    · rw [hr, hnew, hoi]
    · rw [hr, ← holdIds]
      exact hoi
    · intro oldId hm
      rw [hoi] at hm
      simp at hm
  · -- facts about the old ids
    have hold_mem : ∀ id ∈ oldIds, id ∈ m.map (fun e : Str × StoredVector => e.1) ∧
        (oldPath ++ [':', ':']) <+: id := by
      intro id hid
      rw [holdIds] at hid
      unfold getChunkIdsForFile at hid
      have h1 := List.mem_of_mem_filter hid
      have h2 := List.of_mem_filter hid
      exact ⟨h1, List.isPrefixOf_iff_prefix.mp h2⟩
    have hrec_id : ∀ id ∈ oldIds, id = (oldPath ++ [':', ':']) ++ id.drop (oldPath.length + 2) := by
      intro id hid
      obtain ⟨-, hpre⟩ := hold_mem id hid
      obtain ⟨t, ht⟩ := hpre
      have hdrop : id.drop (oldPath.length + 2) = t := by
        rw [← ht]
        have hlen : (oldPath ++ [':', ':']).length = oldPath.length + 2 := by simp
        rw [← hlen, List.drop_left]
      rw [hdrop]
      exact ht.symm
    have hinj : ∀ id1 ∈ oldIds, ∀ id2 ∈ oldIds,
        newPath ++ [':', ':'] ++ id1.drop (oldPath.length + 2) =
          newPath ++ [':', ':'] ++ id2.drop (oldPath.length + 2) → id1 = id2 := by
      intro id1 h1 id2 h2 heq
      have hd : id1.drop (oldPath.length + 2) = id2.drop (oldPath.length + 2) :=
        List.append_cancel_left heq
      rw [hrec_id id1 h1, hrec_id id2 h2, hd]
    have hdisj : ∀ id1 ∈ oldIds, ∀ id2 ∈ oldIds,
        id1 ≠ newPath ++ [':', ':'] ++ id2.drop (oldPath.length + 2) := by
      intro id1 h1 id2 _ heq
      have hpre1 := (hold_mem id1 h1).2
      rw [heq] at hpre1
      exact hne (colon_sep_prefix_eq oldPath newPath _ hcold hcnew hpre1)
    have hfresh : ∀ id ∈ oldIds, ∀ e ∈ m,
        e.1 ≠ newPath ++ [':', ':'] ++ id.drop (oldPath.length + 2) := by
      intro id _ e he heq
      have h1 := hnew' e.1 (List.mem_map_of_mem _ he)
      have h2 : ((newPath ++ [':', ':']).isPrefixOf
          (newPath ++ [':', ':'] ++ id.drop (oldPath.length + 2))) = true :=
        List.isPrefixOf_iff_prefix.mpr (List.prefix_append _ _)
      rw [heq] at h1
      rw [h1] at h2
      exact absurd h2 (by simp)
    have hnd_old : oldIds.Nodup := by
      rw [holdIds]
      unfold getChunkIdsForFile
      exact hnodup.filter _
    have hsome : ∀ id ∈ oldIds, (getVector m id).isSome := by
      intro id hid
      obtain ⟨hmem, -⟩ := hold_mem id hid
      obtain ⟨e, he, rfl⟩ := List.mem_map.mp hmem
      unfold getVector
      simp only [Option.isSome_map']
      exact List.find?_isSome.mpr ⟨e, he, by simp⟩
    -- the fold result
    have hfold := rename_foldl_eq oldPath newPath nfl oldIds m m (fun _ _ => rfl)
      hfresh hdisj hinj hnd_old
    set newEntries := oldIds.filterMap (fun i => (getVector m i).map (fun stored =>
        (newPath ++ [':', ':'] ++ i.drop (oldPath.length + 2),
         (⟨stored.vector, stored.contentHash, stored.content, some newPath,
           some nfl⟩ : StoredVector)))) with hNE
    -- the rename equals delete-after-append
    have hrw : renameFileVectors m oldPath newPath =
        deleteVectors (m ++ newEntries) oldIds := by
      unfold renameFileVectors
      rw [← holdIds]
      have hie : oldIds.isEmpty = false := by
        cases h : oldIds with
        | nil => exact absurd h hoi
        | cons a l => rfl
      simp only [hie, Bool.false_eq_true, if_false]
      rw [hfold]
    -- facts about the renamed block
    have hNE_keys : ∀ e ∈ newEntries, ∃ id ∈ oldIds,
        e.1 = newPath ++ [':', ':'] ++ id.drop (oldPath.length + 2) := by
      intro e he
      rw [hNE] at he
      obtain ⟨id, hid, hgid⟩ := List.mem_filterMap.mp he
      obtain ⟨sv, _, heq⟩ := Option.map_eq_some'.mp hgid
      exact ⟨id, hid, by rw [← heq]⟩
    have hNE_new_prefix : ∀ e ∈ newEntries,
        ((newPath ++ [':', ':']).isPrefixOf e.1) = true := by
      intro e he
      obtain ⟨id, _, hk⟩ := hNE_keys e he
      rw [hk]
      exact List.isPrefixOf_iff_prefix.mpr (List.prefix_append _ _)
    have hNE_not_old : ∀ e ∈ newEntries,
        ((oldPath ++ [':', ':']).isPrefixOf e.1) = false := by
      intro e he
      obtain ⟨id, _, hk⟩ := hNE_keys e he
      cases hb : ((oldPath ++ [':', ':']).isPrefixOf e.1) with
      | false => rfl
      | true =>
        rw [hk] at hb
        exact absurd (hne (colon_sep_prefix_eq oldPath newPath _ hcold hcnew
          (List.isPrefixOf_iff_prefix.mp hb))) (by simp)
    have hNE_notin_old : ∀ e ∈ newEntries, e.1 ∉ oldIds := by
      intro e he hmem
      have h1 := (hold_mem e.1 hmem).2
      have h2 := hNE_not_old e he
      rw [List.isPrefixOf_iff_prefix.mpr h1] at h2
      exact absurd h2 (by simp)
    have hkeep_new : newEntries.filter (fun e => !oldIds.any (fun id => id == e.1)) =
        newEntries := by
      rw [List.filter_eq_self]
      intro e he
      simp only [Bool.not_eq_true', List.any_eq_false, beq_iff_eq]
      intro id hid heq
      exact hNE_notin_old e he (heq ▸ hid)
    have hfinal : renameFileVectors m oldPath newPath =
        m.filter (fun e => !oldIds.any (fun id => id == e.1)) ++ newEntries := by
      rw [hrw]
      unfold deleteVectors
      rw [List.filter_append, hkeep_new]
    have hlenNE : newEntries.length = oldIds.length := by
      rw [hNE]
      refine filterMap_allSome_length _ oldIds (fun id hid => ?_)
      simp only [Option.isSome_map']
      exact hsome id hid
    refine ⟨?_, ?_, ?_⟩
    · -- count preserved under newPath
      rw [hfinal]
      unfold getChunkIdsForFile
      rw [List.map_append, List.filter_append]
      have hA : ((m.filter (fun e => !oldIds.any (fun id => id == e.1))).map
          (fun e : Str × StoredVector => e.1)).filter
            (fun id => (newPath ++ [':', ':']).isPrefixOf id) = [] := by
        rw [List.filter_eq_nil_iff]
        intro k hk
        obtain ⟨e, hef, rfl⟩ := List.mem_map.mp hk
        have := hnew' e.1 (List.mem_map_of_mem _ (List.mem_of_mem_filter hef))
        simp [this]
      have hB : ((newEntries.map (fun e : Str × StoredVector => e.1)).filter
          (fun id => (newPath ++ [':', ':']).isPrefixOf id)) =
          newEntries.map (fun e : Str × StoredVector => e.1) := by
        rw [List.filter_eq_self]
        intro k hk
        obtain ⟨e, he, rfl⟩ := List.mem_map.mp hk
        exact hNE_new_prefix e he
      rw [hA, hB]
      simp [hlenNE]
    · -- nothing remains under oldPath
      rw [hfinal]
      unfold getChunkIdsForFile
      rw [List.map_append, List.filter_append]
      have hC : ((m.filter (fun e => !oldIds.any (fun id => id == e.1))).map
          (fun e : Str × StoredVector => e.1)).filter
            (fun id => (oldPath ++ [':', ':']).isPrefixOf id) = [] := by
        rw [List.filter_eq_nil_iff]
        intro k hk
        obtain ⟨e, hef, rfl⟩ := List.mem_map.mp hk
        have hkeep := List.of_mem_filter hef
        simp only [Bool.not_eq_true', List.any_eq_false, beq_iff_eq] at hkeep
        intro hP
        refine hkeep e.1 ?_ rfl
        rw [holdIds]
        unfold getChunkIdsForFile
        exact List.mem_filter.mpr
          ⟨List.mem_map_of_mem _ (List.mem_of_mem_filter hef), hP⟩
      have hD : ((newEntries.map (fun e : Str × StoredVector => e.1)).filter
          (fun id => (oldPath ++ [':', ':']).isPrefixOf id)) = [] := by
        rw [List.filter_eq_nil_iff]
        intro k hk
        obtain ⟨e, he, rfl⟩ := List.mem_map.mp hk
        simp [hNE_not_old e he]
      rw [hC, hD]
      rfl
    · -- each renamed record is found with its fields preserved
      intro oldId hoid sv hsv
      rw [hfinal]
      rw [getVector_append_right _ _ _ (fun e hef => hfresh oldId hoid e
        (List.mem_of_mem_filter hef))]
      rw [hNE]
      exact getVector_renamed_block oldPath newPath nfl m oldIds hinj hnd_old oldId hoid sv hsv

/-- **C7, witness.**  The amended claim on a concrete store holding two
chunks of `"a.md"` and one of `"b.md"`, renaming `"a.md"` to `"c.md"`. -/
theorem C7_witness :
    (getChunkIdsForFile (renameFileVectors
        [((("a.md::0").data : Str), ⟨[], ("h1").data, some (("x").data),
            some (("a.md").data), some (("[[a]]").data)⟩),
          ((("a.md::1").data : Str), ⟨[], ("h2").data, some (("y").data),
            some (("a.md").data), some (("[[a]]").data)⟩),
          ((("b.md::0").data : Str), ⟨[], ("h3").data, some (("z").data),
            some (("b.md").data), some (("[[b]]").data)⟩)]
        (("a.md").data) (("c.md").data)) (("c.md").data)).length =
      (getChunkIdsForFile
        [((("a.md::0").data : Str), ⟨[], ("h1").data, some (("x").data),
            some (("a.md").data), some (("[[a]]").data)⟩),
          ((("a.md::1").data : Str), ⟨[], ("h2").data, some (("y").data),
            some (("a.md").data), some (("[[a]]").data)⟩),
          ((("b.md::0").data : Str), ⟨[], ("h3").data, some (("z").data),
            some (("b.md").data), some (("[[b]]").data)⟩)] (("a.md").data)).length ∧
    getChunkIdsForFile (renameFileVectors
        [((("a.md::0").data : Str), ⟨[], ("h1").data, some (("x").data),
            some (("a.md").data), some (("[[a]]").data)⟩),
          ((("a.md::1").data : Str), ⟨[], ("h2").data, some (("y").data),
            some (("a.md").data), some (("[[a]]").data)⟩),
          ((("b.md::0").data : Str), ⟨[], ("h3").data, some (("z").data),
            some (("b.md").data), some (("[[b]]").data)⟩)]
        (("a.md").data) (("c.md").data)) (("a.md").data) = [] := by
  have h := C7_rename_preserves_vectors
    [((("a.md::0").data : Str), ⟨[], ("h1").data, some (("x").data),
        some (("a.md").data), some (("[[a]]").data)⟩),
      ((("a.md::1").data : Str), ⟨[], ("h2").data, some (("y").data),
        some (("a.md").data), some (("[[a]]").data)⟩),
      ((("b.md::0").data : Str), ⟨[], ("h3").data, some (("z").data),
        some (("b.md").data), some (("[[b]]").data)⟩)]
    (("a.md").data) (("c.md").data) (by decide) (by decide) (by decide) (by decide) (by decide)
  exact ⟨h.1, h.2.1⟩

/-- **C7, counterexample to the claim as stated.**  With the store holding
only the chunk id `"a::0"`, `oldPath = "a"` and `newPath = "a::b"`, the
claim's hypotheses hold (`newPath` holds no vectors — no id starts with
`"a::b::"` — and the paths differ), yet after the rename
`getChunkIdsForFile "a"` is not empty: the re-keyed id `"a::b::0"` itself
starts with `"a::"`.  (Colon-free paths, as the amendment requires, rule
this out.) -/
theorem C7_counterexample :
    getChunkIdsForFile
        [((("a::0").data : Str), ⟨[], ("h1").data, some (("x").data),
            some (("a").data), some (("[[a]]").data)⟩)] (("a::b").data) = [] ∧
    ("a").data ≠ ("a::b").data ∧
    getChunkIdsForFile (renameFileVectors
        [((("a::0").data : Str), ⟨[], ("h1").data, some (("x").data),
            some (("a").data), some (("[[a]]").data)⟩)]
        (("a").data) (("a::b").data)) (("a").data) = [("a::b::0").data] := by
  refine ⟨by decide, by decide, by decide⟩

/-- **C4.**  A chunk whose stored vector is still valid (stored content hash
equal to the hash of its content) is skipped: with an API key set,
`embedChunks [c]` returns `{processed := 0, skipped := 1, failed := 0}`,
leaves the store untouched, and — the result being the same for **every**
embedding service — issues no call to the embedding service. -/
theorem C4_embedChunks_skips_valid (cfg : EmbeddingManagerConfig) (service : EmbedService)
    (apiKey : Str) (st : VectorMap) (c : Chunk)
    (hkey : apiKey ≠ [])
    (hvalid : hasValidVector st c.id (hashContent c.content) = true) :
    embedChunks cfg service apiKey st [c] = (⟨0, 1, 0, none⟩, st) := by
  have hk : apiKey.isEmpty = false := by
    rw [← Bool.not_eq_true]
    exact fun h => hkey (List.isEmpty_iff.mp h)
  simp only [embedChunks, hk, Bool.false_eq_true, if_false]
  simp [hvalid]

/-- **C4, witness.**  A concrete store holding a valid vector for the chunk
`"a.md::0"` with content `"hi"`, and a service that would fail if it were
ever called. -/
theorem C4_witness :
    embedChunks ⟨20, 100⟩ (fun _ _ => Except.error (("down").data)) (("k").data)
      [((("a.md::0").data : Str), ⟨[], hashContent (("hi").data), some (("hi").data),
          some (("a.md").data), some (("[[a]]").data)⟩)]
      [⟨("a.md::0").data, ("hi").data, ("a.md").data, ("[[a]]").data, 0⟩] =
    (⟨0, 1, 0, none⟩,
      [((("a.md::0").data : Str), ⟨[], hashContent (("hi").data), some (("hi").data),
          some (("a.md").data), some (("[[a]]").data)⟩)]) :=
  C4_embedChunks_skips_valid ⟨20, 100⟩ (fun _ _ => Except.error (("down").data))
    (("k").data) _ _ (by decide) (by decide)

/-- Splitting a list by a `Bool` predicate splits its length. -/
theorem filter_split_length {α : Type} (p : α → Bool) :
    ∀ (l : List α), (l.filter p).length + (l.filter (fun a => !p a)).length = l.length := by
  intro l
  induction l with
  | nil => rfl
  | cons a l ih =>
    cases h : p a with
    | true => simp [List.filter_cons, h, ← ih]; omega
    | false => simp [List.filter_cons, h, ← ih]; omega

/-- The inner save loop accounts each batch item exactly once, as processed
or failed. -/
theorem saveEmbeddings_counts :
    ∀ (batch : List (Chunk × Str)) (j : Nat) (es : List (List ℝ)) (st : VectorMap) (p f : Nat),
      (saveEmbeddings batch j es st p f).1 + (saveEmbeddings batch j es st p f).2.1 =
        p + f + batch.length := by
  intro batch
  induction batch with
  | nil => intros; rfl
  | cons item rest ih =>
    intro j es st p f
    simp only [saveEmbeddings]
    cases h : es[j]? with
    | some emb =>
      simp only [h]
      have := ih (j + 1) es
        (saveVector st item.1.id emb item.2 item.1.content item.1.filePath item.1.fileLink)
        (p + 1) f
      simp only [List.length_cons]
      omega
    | none =>
      simp only [h]
      have := ih (j + 1) es st p (f + 1)
      simp only [List.length_cons]
      omega

/-- The batch loop accounts each remaining chunk exactly once, whatever the
service does at each call. -/
theorem processBatches_counts (cfg : EmbeddingManagerConfig) (service : EmbedService)
    (apiKey : Str) :
    ∀ (n : Nat) (remaining : List (Chunk × Str)), remaining.length ≤ n →
      ∀ (i : Nat) (st : VectorMap) (p f : Nat),
        (processBatches cfg service apiKey i remaining st p f).1 +
          (processBatches cfg service apiKey i remaining st p f).2.1 =
          p + f + remaining.length := by
  intro n
  induction n with
  | zero =>
    intro remaining hlen i st p f
    match remaining with
    | [] => simp [processBatches]
    | _ :: _ => simp at hlen
  | succ n ihn =>
    intro remaining hlen i st p f
    match remaining with
    | [] => simp [processBatches]
    | item :: rest =>
      simp only [processBatches]
      have hbs : 1 ≤ max cfg.batchSize 1 := le_max_right _ 1
      have hdl : ((item :: rest).drop (max cfg.batchSize 1)).length ≤ n := by
        simp only [List.length_drop, List.length_cons]
        simp only [List.length_cons] at hlen
        omega
      have htk : ((item :: rest).take (max cfg.batchSize 1)).length =
          min (max cfg.batchSize 1) (rest.length + 1) := by
        simp [List.length_take]
      split
      · have := ihn _ hdl (i + max cfg.batchSize 1) st p
          (f + ((item :: rest).take (max cfg.batchSize 1)).length)
        simp only [List.length_drop, List.length_cons] at this ⊢
        rw [this, htk]
        omega
      · have hsave := saveEmbeddings_counts ((item :: rest).take (max cfg.batchSize 1)) 0
          (getEmbeddings service apiKey i
            (((item :: rest).take (max cfg.batchSize 1)).map (fun it => it.1.content))).embeddings
          st p f
        have := ihn _ hdl (i + max cfg.batchSize 1)
          (saveEmbeddings ((item :: rest).take (max cfg.batchSize 1)) 0
            (getEmbeddings service apiKey i
              (((item :: rest).take (max cfg.batchSize 1)).map (fun it => it.1.content))).embeddings
            st p f).2.2
          (saveEmbeddings ((item :: rest).take (max cfg.batchSize 1)) 0
            (getEmbeddings service apiKey i
              (((item :: rest).take (max cfg.batchSize 1)).map (fun it => it.1.content))).embeddings
            st p f).1
          (saveEmbeddings ((item :: rest).take (max cfg.batchSize 1)) 0
            (getEmbeddings service apiKey i
              (((item :: rest).take (max cfg.batchSize 1)).map (fun it => it.1.content))).embeddings
            st p f).2.1
        simp only [List.length_drop, List.length_cons] at this ⊢
        rw [this]
        rw [htk] at hsave
        omega

/-- **C10.**  With an API key set, for every chunk list, every starting
store and **every** behaviour of the embedding service — thrown errors
(`Except.error`), batch-level `error` responses, and responses with missing
embeddings — `embedChunks` accounts every chunk exactly once:
`processed + skipped + failed = chunks.length`. -/
theorem C10_embedChunks_accounting (cfg : EmbeddingManagerConfig) (service : EmbedService)
    (apiKey : Str) (st : VectorMap) (chunks : List Chunk) (hkey : apiKey ≠ []) :
    (embedChunks cfg service apiKey st chunks).1.processed +
      (embedChunks cfg service apiKey st chunks).1.skipped +
      (embedChunks cfg service apiKey st chunks).1.failed = chunks.length := by
  have hk : apiKey.isEmpty = false := by
    rw [← Bool.not_eq_true]
    exact fun h => hkey (List.isEmpty_iff.mp h)
  simp only [embedChunks, hk, Bool.false_eq_true, if_false]
  have hsplit : (chunks.filter (fun c => hasValidVector st c.id (hashContent c.content))).length +
      (chunks.filter (fun c => !hasValidVector st c.id (hashContent c.content))).length =
      chunks.length := filter_split_length _ chunks
  by_cases hch : chunks.isEmpty
  · rw [if_pos hch]
    rw [List.isEmpty_iff] at hch
    simp [hch]
  · rw [if_neg hch]
    split
    · rename_i hempty
      rw [List.isEmpty_iff, List.map_eq_nil] at hempty
      rw [hempty] at hsplit
      simpa using hsplit
    · have hp := processBatches_counts cfg service apiKey
        ((chunks.filter (fun c => !hasValidVector st c.id (hashContent c.content))).map
          (fun c => (c, hashContent c.content))).length _ le_rfl 0 st 0 0
      simp only [List.length_map] at hp
      simp only [Nat.zero_add] at hp
      dsimp only
      omega

/-- **C10, witness.**  One chunk, an empty store, and a service that always
throws: the result still accounts the chunk (`0 + 0 + 1 = 1`). -/
theorem C10_witness :
    (embedChunks ⟨20, 100⟩ (fun _ _ => Except.error (("down").data)) (("k").data) []
        [⟨("a.md::0").data, ("hi").data, ("a.md").data, ("[[a]]").data, 0⟩]).1.processed +
      (embedChunks ⟨20, 100⟩ (fun _ _ => Except.error (("down").data)) (("k").data) []
        [⟨("a.md::0").data, ("hi").data, ("a.md").data, ("[[a]]").data, 0⟩]).1.skipped +
      (embedChunks ⟨20, 100⟩ (fun _ _ => Except.error (("down").data)) (("k").data) []
        [⟨("a.md::0").data, ("hi").data, ("a.md").data, ("[[a]]").data, 0⟩]).1.failed = 1 :=
  C10_embedChunks_accounting ⟨20, 100⟩ (fun _ _ => Except.error (("down").data))
    (("k").data) [] [⟨("a.md::0").data, ("hi").data, ("a.md").data, ("[[a]]").data, 0⟩]
    (by decide)

/-- **C8.**  `RAGEngine.ask` always returns a string (it is a total
function) and never raises.  With no API key it returns the user-facing
configuration-error string — for every embedding service and chat service,
so no network call can influence (or be needed for) the result.  With a key
set, if the chat network call reports an error `e` (a thrown exception, as
the wrapped `sendChatMessage` catches it), the returned string is
`"Error: " ++ e` rather than an exception. -/
theorem C8_ask_never_throws (fmt : ℝ → Str) (service : EmbedService) (net : ChatService)
    (apiKey : Str) (m : VectorMap) (excludedFolders : List Str)
    (oracle : Str → Option FileCache) (getSettings : Option RagSettings)
    (userQuery : Str) (history : List ChatMessage) (searchOptions : Option SearchOptions) :
    (ask fmt service net [] m excludedFolders oracle getSettings userQuery history
        searchOptions = apiKeyErrorText) ∧
    (apiKey ≠ [] → ∀ e : Str, e ≠ [] → (∀ msgs, net msgs = Except.error e) →
      ask fmt service net apiKey m excludedFolders oracle getSettings userQuery history
        searchOptions = ("Error: ").data ++ e) := by
  constructor
  · rfl
  · intro hkey e he hnet
    have hk : apiKey.isEmpty = false := by
      rw [← Bool.not_eq_true]
      exact fun h => hkey (List.isEmpty_iff.mp h)
    have hee : e.isEmpty = false := by
      rw [← Bool.not_eq_true]
      exact fun h => he (List.isEmpty_iff.mp h)
    simp only [ask, sendChatMessage, hk, Bool.false_eq_true, if_false, hnet, hee]

/-- **C8, witness.**  A failing embedding service and a chat service that
always throws `"boom"`: without a key `ask` returns the configuration
error; with the key `"k"` it returns `"Error: boom"`. -/
theorem C8_witness :
    (ask (fun _ => []) (fun _ _ => Except.error (("x").data))
        (fun _ => Except.error (("boom").data)) [] [] [] (fun _ => none) none
        (("q").data) [] none = apiKeyErrorText) ∧
    (ask (fun _ => []) (fun _ _ => Except.error (("x").data))
        (fun _ => Except.error (("boom").data)) (("k").data) [] [] (fun _ => none) none
        (("q").data) [] none = ("Error: ").data ++ ("boom").data) := by
  constructor
  · exact (C8_ask_never_throws (fun _ => []) (fun _ _ => Except.error (("x").data))
      (fun _ => Except.error (("boom").data)) [] [] [] (fun _ => none) none
      (("q").data) [] none).1
  · exact (C8_ask_never_throws (fun _ => []) (fun _ _ => Except.error (("x").data))
      (fun _ => Except.error (("boom").data)) (("k").data) [] [] (fun _ => none) none
      (("q").data) [] none).2 (by decide) (("boom").data) (by decide) (fun msgs => rfl)

/-- Insertion keeps membership: the inserted list is the element consed on. -/
theorem insertByScore_perm (x : SearchResult) :
    ∀ (l : List SearchResult), (insertByScore x l).Perm (x :: l) := by
  intro l
  induction l with
  | nil => simp [insertByScore]
  | cons y ys ih =>
    simp only [insertByScore]
    split
    · exact List.Perm.refl _
    · exact (List.Perm.cons y ih).trans (List.Perm.swap x y ys)

/-- The stable sort is a permutation of its input. -/
theorem sortByScoreDesc_perm : ∀ (l : List SearchResult), (sortByScoreDesc l).Perm l := by
  intro l
  induction l with
  | nil => simp [sortByScoreDesc]
  | cons x xs ih =>
    simp only [sortByScoreDesc]
    exact (insertByScore_perm x (sortByScoreDesc xs)).trans (List.Perm.cons x ih)

/-- Insertion preserves the descending-by-score invariant. -/
theorem insertByScore_sorted (x : SearchResult) :
    ∀ (l : List SearchResult), l.Pairwise (fun a b => b.score ≤ a.score) →
      (insertByScore x l).Pairwise (fun a b => b.score ≤ a.score) := by
  intro l
  induction l with
  | nil => intro _; simp [insertByScore]
  | cons y ys ih =>
    intro hp
    rcases List.pairwise_cons.mp hp with ⟨hy, hys⟩
    simp only [insertByScore]
    split
    · rename_i hxy
      refine List.pairwise_cons.mpr ⟨?_, hp⟩
      intro z hz
      rcases List.mem_cons.mp hz with rfl | hz'
      · exact hxy
      · exact le_trans (hy z hz') hxy
    · rename_i hxy
      push_neg at hxy
      refine List.pairwise_cons.mpr ⟨?_, ih hys⟩
      intro z hz
      rcases List.mem_cons.mp ((insertByScore_perm x ys).mem_iff.mp hz) with rfl | hz'
      · exact le_of_lt hxy
      · exact hy z hz'

/-- The modelled `Array.prototype.sort` output is descending by score. -/
theorem sortByScoreDesc_sorted :
    ∀ (l : List SearchResult), (sortByScoreDesc l).Pairwise (fun a b => b.score ≤ a.score) := by
  intro l
  induction l with
  | nil => simp [sortByScoreDesc]
  | cons x xs ih => exact insertByScore_sorted x (sortByScoreDesc xs) ih

/-- What a membership in `VectorStore.search` means: a scored record of the
store with both content fields present. -/
theorem mem_vectorStore_search (m : VectorMap) (excludedFolders : List Str)
    (oracle : Str → Option FileCache) (q : List ℝ) (limit : Nat)
    (opts : Option SearchOptions) (r : SearchResult)
    (hr : r ∈ VectorStore.search m excludedFolders oracle q limit opts) :
    ∃ e ∈ m, e.1 = r.chunkId ∧ falsy e.2.content = false ∧ falsy e.2.filePath = false ∧
      r.content = e.2.content.getD [] ∧ r.filePath = e.2.filePath.getD [] ∧
      r.fileLink = e.2.fileLink.getD [] ∧ r.score = cosineSimilarity q e.2.vector := by
  unfold VectorStore.search at hr
  have hr1 := (sortByScoreDesc_perm _).mem_iff.mp (List.take_subset _ _ hr)
  obtain ⟨e, he, hstep⟩ := List.mem_filterMap.mp hr1
  unfold searchStep at hstep
  split at hstep
  · exact absurd hstep (by simp)
  · rename_i hfal
    split at hstep
    · exact absurd hstep (by simp)
    · split at hstep
      · exact absurd hstep (by simp)
      · rcases Option.some.inj hstep with rfl
        rw [Bool.not_eq_true, Bool.or_eq_false_iff] at hfal
        exact ⟨e, he, rfl, hfal.1, hfal.2, rfl, rfl, rfl, rfl⟩

/-- **C2.**  For every store, query vector, limit and filter:
`VectorStore.search` returns at most `limit` results, sorted descending by
score (stable), scoring only records that carry both `content` and
`filePath` (falsy fields are skipped entirely — every returned result comes
from a record with both fields truthy); and on the empty store it returns
the empty sequence — being a total function, it never raises. -/
theorem C2_vectorStore_search_contract (m : VectorMap) (excludedFolders : List Str)
    (oracle : Str → Option FileCache) (q : List ℝ) (limit : Nat)
    (opts : Option SearchOptions) :
    (VectorStore.search m excludedFolders oracle q limit opts).length ≤ limit ∧
    (VectorStore.search m excludedFolders oracle q limit opts).Pairwise
      (fun a b => b.score ≤ a.score) ∧
    (VectorStore.search m excludedFolders oracle q limit opts).Forall (fun r =>
      ∃ e ∈ m, e.1 = r.chunkId ∧ falsy e.2.content = false ∧ falsy e.2.filePath = false ∧
        r.content = e.2.content.getD [] ∧ r.filePath = e.2.filePath.getD [] ∧
        r.fileLink = e.2.fileLink.getD [] ∧ r.score = cosineSimilarity q e.2.vector) ∧
    VectorStore.search [] excludedFolders oracle q limit opts = [] := by
  refine ⟨List.length_take_le _ _, ?_, ?_, by simp [VectorStore.search, sortByScoreDesc]⟩
  · exact (sortByScoreDesc_sorted _).sublist (List.take_sublist _ _)
  · rw [List.forall_iff_forall_mem]
    exact fun r hr => mem_vectorStore_search m excludedFolders oracle q limit opts r hr

/-- Sums of squares are non-negative. -/
theorem sumSq_nonneg (l : List ℝ) : 0 ≤ (l.map (fun x => x * x)).sum := by
  apply List.sum_nonneg
  intro z hz
  obtain ⟨x, -, rfl⟩ := List.mem_map.mp hz
  exact mul_self_nonneg x

/-- Cauchy–Schwarz for the list dot product. -/
theorem list_cauchy_schwarz :
    ∀ (a b : List ℝ), ((List.zipWith (fun x y => x * y) a b).sum) ^ 2 ≤
      ((a.map (fun x => x * x)).sum) * ((b.map (fun x => x * x)).sum) := by
  intro a
  induction a with
  | nil => intro b; simp
  | cons x a' ih =>
    intro b
    match b with
    | [] => simp [mul_nonneg (sumSq_nonneg (x :: a'))]
    | y :: b' =>
      simp only [List.zipWith_cons_cons, List.map_cons, List.sum_cons]
      have hA := sumSq_nonneg a'
      have hB := sumSq_nonneg b'
      have hIH := ih b'
      rcases eq_or_lt_of_le hA with hA0 | hApos
      · have hd2 : ((List.zipWith (fun x y => x * y) a' b').sum) ^ 2 ≤ 0 := by
          nlinarith [hIH]
        have hd : (List.zipWith (fun x y => x * y) a' b').sum = 0 := by
          nlinarith [sq_nonneg ((List.zipWith (fun x y => x * y) a' b').sum)]
        rw [hd]
        nlinarith [mul_nonneg (mul_self_nonneg x) hB, mul_self_nonneg y]
      · have key : ((a'.map (fun x => x * x)).sum) *
            ((x * x + (a'.map (fun x => x * x)).sum) * (y * y + (b'.map (fun x => x * x)).sum) -
              (x * y + (List.zipWith (fun x y => x * y) a' b').sum) ^ 2) =
            (x * (List.zipWith (fun x y => x * y) a' b').sum -
              y * (a'.map (fun x => x * x)).sum) ^ 2 +
            (x * x + (a'.map (fun x => x * x)).sum) *
              ((a'.map (fun x => x * x)).sum * (b'.map (fun x => x * x)).sum -
                ((List.zipWith (fun x y => x * y) a' b').sum) ^ 2) := by
          ring
        have h1 : 0 ≤ (x * (List.zipWith (fun x y => x * y) a' b').sum -
            y * (a'.map (fun x => x * x)).sum) ^ 2 := sq_nonneg _
        have h2 : 0 ≤ (x * x + (a'.map (fun x => x * x)).sum) *
            ((a'.map (fun x => x * x)).sum * (b'.map (fun x => x * x)).sum -
              ((List.zipWith (fun x y => x * y) a' b').sum) ^ 2) :=
          mul_nonneg (by nlinarith [mul_self_nonneg x]) (by nlinarith [hIH])
        have h3 : 0 ≤ ((a'.map (fun x => x * x)).sum) *
            ((x * x + (a'.map (fun x => x * x)).sum) * (y * y + (b'.map (fun x => x * x)).sum) -
              (x * y + (List.zipWith (fun x y => x * y) a' b').sum) ^ 2) := by
          rw [key]; linarith
        nlinarith [h3, hApos]

/-- The cosine similarity of any two lists lies in `[-1, 1]` (and is `0`
exactly in the guarded cases). -/
theorem cosineSimilarity_bounds (a b : List ℝ) :
    -1 ≤ cosineSimilarity a b ∧ cosineSimilarity a b ≤ 1 := by
  unfold cosineSimilarity
  split
  · norm_num
  · split
    · norm_num
    · rename_i hden
      have hd0 : 0 ≤ Real.sqrt ((a.map (fun x => x * x)).sum) *
          Real.sqrt ((b.map (fun x => x * x)).sum) :=
        mul_nonneg (Real.sqrt_nonneg _) (Real.sqrt_nonneg _)
      have hpos : 0 < Real.sqrt ((a.map (fun x => x * x)).sum) *
          Real.sqrt ((b.map (fun x => x * x)).sum) := lt_of_le_of_ne hd0 (Ne.symm hden)
      have habs : |(List.zipWith (fun x y => x * y) a b).sum| ≤
          Real.sqrt ((a.map (fun x => x * x)).sum) * Real.sqrt ((b.map (fun x => x * x)).sum) := by
        rw [← Real.sqrt_sq_eq_abs, ← Real.sqrt_mul (sumSq_nonneg a)]
        exact Real.sqrt_le_sqrt (list_cauchy_schwarz a b)
      have h1 : |(List.zipWith (fun x y => x * y) a b).sum /
          (Real.sqrt ((a.map (fun x => x * x)).sum) *
            Real.sqrt ((b.map (fun x => x * x)).sum))| ≤ 1 := by
        rw [abs_div, abs_of_pos hpos]
        exact (div_le_one hpos).mpr habs
      exact abs_le.mp h1

/-- The keyword score is a fraction in `[0, 1]`. -/
theorem calculateKeywordScore_bounds (q t : Str) :
    0 ≤ calculateKeywordScore q t ∧ calculateKeywordScore q t ≤ 1 := by
  unfold calculateKeywordScore
  split
  · norm_num
  · rename_i hne
    have hlen : 0 < ((wsSplit (q.map Char.toLower)).filter (fun w => 3 ≤ w.length)).length := by
      rw [List.length_pos]
      intro h
      rw [h] at hne
      exact hne rfl
    have hcast : (0 : ℝ) < (((wsSplit (q.map Char.toLower)).filter
        (fun w => 3 ≤ w.length)).length : ℝ) := by exact_mod_cast hlen
    constructor
    · exact div_nonneg (Nat.cast_nonneg _) (le_of_lt hcast)
    · rw [div_le_one hcast]
      exact_mod_cast List.length_filter_le _ _

/-- **C6 (amended).**  Every score returned by the vector stage
(`VectorStore.search`) and by the hybrid stage (`EmbeddingManager.search`)
lies in `[-1, 1]`.  The claimed interval `[0, 1]` is wrong: cosine
similarity of arbitrary vectors is negative whenever they point in opposing
directions, and the code does not clamp (see `C6_counterexample`; the
hybrid score `0.7 * v + 0.3 * k` then lies in `[-0.7, 1] ⊆ [-1, 1]`). -/
theorem C6_scores_within_bounds (service : EmbedService) (apiKey : Str) (m : VectorMap)
    (excludedFolders : List Str) (oracle : Str → Option FileCache) (q : List ℝ)
    (queryText : Str) (limit poolSize : Nat) (opts : Option SearchOptions) :
    (VectorStore.search m excludedFolders oracle q limit opts).Forall
      (fun r => -1 ≤ r.score ∧ r.score ≤ 1) ∧
    (EmbeddingManager.search service apiKey m excludedFolders oracle queryText limit
        poolSize opts).Forall (fun r => -1 ≤ r.score ∧ r.score ≤ 1) := by
  constructor
  · rw [List.forall_iff_forall_mem]
    intro r hr
    obtain ⟨e, -, -, -, -, -, -, -, hscore⟩ :=
      mem_vectorStore_search m excludedFolders oracle q limit opts r hr
    rw [hscore]
    exact cosineSimilarity_bounds q e.2.vector
  · rw [List.forall_iff_forall_mem]
    intro r hr
    unfold EmbeddingManager.search at hr
    cases hq : getQueryEmbedding service apiKey queryText with
    | none => simp only [hq] at hr; simp at hr
    | some qv =>
      simp only [hq] at hr
      by_cases hemp : (VectorStore.search m excludedFolders oracle qv poolSize opts).isEmpty
      · rw [if_pos hemp] at hr
        simp at hr
      · rw [if_neg hemp] at hr
        unfold hybridRerank at hr
        have hr1 := (sortByScoreDesc_perm _).mem_iff.mp (List.take_subset _ _ hr)
        obtain ⟨c, hc, rfl⟩ := List.mem_map.mp hr1
        obtain ⟨e, -, -, -, -, -, -, -, hscore⟩ :=
          mem_vectorStore_search m excludedFolders oracle qv poolSize opts c hc
        have hv := cosineSimilarity_bounds qv e.2.vector
        rw [← hscore] at hv
        have hk := calculateKeywordScore_bounds queryText c.content
        constructor
        · simp only
          nlinarith [hv.1, hk.1]
        · simp only
          nlinarith [hv.2, hk.2]

/-- **C6, counterexample to the claim as stated.**  A store holding the
embedding `[-1]` queried with `[1]`: the (only) returned score is `-1`,
outside the claimed interval `[0, 1]`. -/
theorem C6_counterexample :
    VectorStore.search
        [((("a.md::0").data : Str), ⟨[(-1 : ℝ)], ("h").data, some (("x").data),
            some (("a.md").data), some (("[[a]]").data)⟩)]
        [] (fun _ => none) [(1 : ℝ)] 5 none =
      [⟨("a.md::0").data, ("x").data, ("a.md").data, ("[[a]]").data, (-1 : ℝ)⟩] ∧
    ¬ ((0 : ℝ) ≤ -1) := by
  constructor
  · have hcs : cosineSimilarity [(1 : ℝ)] [(-1 : ℝ)] = -1 := by
      unfold cosineSimilarity
      rw [if_neg (by norm_num)]
      rw [if_neg (by norm_num [Real.sqrt_one])]
      norm_num [Real.sqrt_one]
    unfold VectorStore.search
    simp [searchStep, falsy, isExcluded, matchesFilter, sortByScoreDesc, insertByScore, hcs]
  · norm_num

/-- In a list sorted descending by score, every member with a strictly
higher score is positioned before every member with a lower one. -/
theorem sorted_sandwich :
    ∀ (l : List SearchResult) (x y : SearchResult),
      l.Pairwise (fun a b => b.score ≤ a.score) → x ∈ l → y ∈ l → y.score < x.score →
      ∃ p mid s, l = p ++ x :: mid ++ y :: s := by
  intro l
  induction l with
  | nil => intro x y _ hx; simp at hx
  | cons h t ih =>
    intro x y hp hx hy hlt
    rcases List.pairwise_cons.mp hp with ⟨hh, ht⟩
    rcases List.mem_cons.mp hx with rfl | hx'
    · have hy' : y ∈ t := by
        rcases List.mem_cons.mp hy with rfl | hy'
        · exact absurd hlt (lt_irrefl _)
        · exact hy'
      obtain ⟨s1, s2, hsplit⟩ := List.append_of_mem hy'
      exact ⟨[], s1, s2, by rw [hsplit]; simp⟩
    · rcases List.mem_cons.mp hy with rfl | hy'
      · exact absurd (hh x hx') (not_le.mpr hlt)
      · obtain ⟨p, mid, s, hsplit⟩ := ih x y ht hx' hy' hlt
        exact ⟨h :: p, mid, s, by rw [hsplit]; simp⟩

/-- **C3.**  In `EmbeddingManager.search`, every returned result is a pool
candidate re-scored to exactly `0.7 * vectorScore + 0.3 * keywordScore`
(the keyword score being the fraction of the query's lowercased
length-≥-3 tokens occurring in the lowercased content, `0` when none
remain); consequently, for two pool candidates with equal vector scores of
which one matches all query keywords (`keywordScore = 1`) and the other
none (`keywordScore = 0`), the former's hybrid score is strictly larger,
and wherever both are returned, the former appears strictly earlier in the
returned order. -/
theorem C3_hybrid_score_blend (service : EmbedService) (apiKey : Str) (m : VectorMap)
    (excludedFolders : List Str) (oracle : Str → Option FileCache) (queryText : Str)
    (limit poolSize : Nat) (opts : Option SearchOptions) (qv : List ℝ) (c1 c2 : SearchResult)
    (hqv : getQueryEmbedding service apiKey queryText = some qv)
    (hc1 : c1 ∈ VectorStore.search m excludedFolders oracle qv poolSize opts)
    (hc2 : c2 ∈ VectorStore.search m excludedFolders oracle qv poolSize opts)
    (hveq : c1.score = c2.score)
    (hk1 : calculateKeywordScore queryText c1.content = 1)
    (hk2 : calculateKeywordScore queryText c2.content = 0) :
    (EmbeddingManager.search service apiKey m excludedFolders oracle queryText limit
        poolSize opts).Forall (fun r =>
      ∃ c ∈ VectorStore.search m excludedFolders oracle qv poolSize opts,
        r.chunkId = c.chunkId ∧ r.content = c.content ∧ r.filePath = c.filePath ∧
        r.fileLink = c.fileLink ∧
        r.score = c.score * 0.7 + calculateKeywordScore queryText c.content * 0.3) ∧
    c1.score * 0.7 + calculateKeywordScore queryText c1.content * 0.3 >
      c2.score * 0.7 + calculateKeywordScore queryText c2.content * 0.3 ∧
    ((⟨c1.chunkId, c1.content, c1.filePath, c1.fileLink,
        c1.score * 0.7 + calculateKeywordScore queryText c1.content * 0.3⟩ : SearchResult) ∈
          EmbeddingManager.search service apiKey m excludedFolders oracle queryText limit
            poolSize opts →
      (⟨c2.chunkId, c2.content, c2.filePath, c2.fileLink,
        c2.score * 0.7 + calculateKeywordScore queryText c2.content * 0.3⟩ : SearchResult) ∈
          EmbeddingManager.search service apiKey m excludedFolders oracle queryText limit
            poolSize opts →
      ∃ pre mid post,
        EmbeddingManager.search service apiKey m excludedFolders oracle queryText limit
            poolSize opts =
          pre ++ (⟨c1.chunkId, c1.content, c1.filePath, c1.fileLink,
            c1.score * 0.7 + calculateKeywordScore queryText c1.content * 0.3⟩ : SearchResult)
            :: mid ++ (⟨c2.chunkId, c2.content, c2.filePath, c2.fileLink,
            c2.score * 0.7 + calculateKeywordScore queryText c2.content * 0.3⟩ : SearchResult)
            :: post) := by
  have hsorted : (EmbeddingManager.search service apiKey m excludedFolders oracle queryText
      limit poolSize opts).Pairwise (fun a b => b.score ≤ a.score) := by
    unfold EmbeddingManager.search
    simp only [hqv]
    by_cases hemp : (VectorStore.search m excludedFolders oracle qv poolSize opts).isEmpty
    · rw [if_pos hemp]; simp
    · rw [if_neg hemp]
      unfold hybridRerank
      exact (sortByScoreDesc_sorted _).sublist (List.take_sublist _ _)
  refine ⟨?_, ?_, ?_⟩
  · rw [List.forall_iff_forall_mem]
    intro r hr
    unfold EmbeddingManager.search at hr
    simp only [hqv] at hr
    by_cases hemp : (VectorStore.search m excludedFolders oracle qv poolSize opts).isEmpty
    · rw [if_pos hemp] at hr
      simp at hr
    · rw [if_neg hemp] at hr
      unfold hybridRerank at hr
      have hr1 := (sortByScoreDesc_perm _).mem_iff.mp (List.take_subset _ _ hr)
      obtain ⟨c, hc, rfl⟩ := List.mem_map.mp hr1
      exact ⟨c, hc, rfl, rfl, rfl, rfl, rfl⟩
  · rw [hk1, hk2, hveq]
    norm_num
  · intro h1 h2
    have hlt : (⟨c2.chunkId, c2.content, c2.filePath, c2.fileLink,
        c2.score * 0.7 + calculateKeywordScore queryText c2.content * 0.3⟩ : SearchResult).score <
        (⟨c1.chunkId, c1.content, c1.filePath, c1.fileLink,
        c1.score * 0.7 + calculateKeywordScore queryText c1.content * 0.3⟩ : SearchResult).score := by
      simp only
      rw [hk1, hk2, hveq]
      norm_num
    exact sorted_sandwich _ _ _ hsorted h1 h2 hlt

/-- The example service yields the query embedding `[1]`. -/
theorem exQueryEmbedding :
    getQueryEmbedding exService (("k").data) (("apple").data) = some [(1 : ℝ)] := rfl

/-- `cosineSimilarity [1] [1] = 1`. -/
theorem exCos : cosineSimilarity [(1 : ℝ)] [(1 : ℝ)] = 1 := by
  unfold cosineSimilarity
  rw [if_neg (by norm_num), if_neg (by norm_num [Real.sqrt_one])]
  norm_num [Real.sqrt_one]

/-- The example vector-stage pool: both records, insertion order preserved
(stable sort on the tied score `1`). -/
theorem exPool : VectorStore.search exStore [] (fun _ => none) [(1 : ℝ)] 50 none =
    [exR1, exR2] := by
  unfold VectorStore.search exStore
  simp [searchStep, falsy, isExcluded, matchesFilter, exCos, sortByScoreDesc, insertByScore,
    exR1, exR2]

/-- The query `"apple"` scores keyword `1` against the content
`"apple"`. -/
theorem exKw1 : calculateKeywordScore (("apple").data) (("apple").data) = 1 := by
  unfold calculateKeywordScore
  rw [if_neg (by decide)]
  have h1 : (((wsSplit ((("apple").data).map Char.toLower)).filter
      (fun w => 3 ≤ w.length)).filter
        (fun k => decide (k <:+: (("apple").data).map Char.toLower))).length = 1 := by decide
  have h2 : ((wsSplit ((("apple").data).map Char.toLower)).filter
      (fun w => 3 ≤ w.length)).length = 1 := by decide
  rw [h1, h2]
  norm_num

/-- The query `"apple"` scores keyword `0` against the content `"zzz"`. -/
theorem exKw2 : calculateKeywordScore (("apple").data) (("zzz").data) = 0 := by
  unfold calculateKeywordScore
  rw [if_neg (by decide)]
  have h1 : (((wsSplit ((("apple").data).map Char.toLower)).filter
      (fun w => 3 ≤ w.length)).filter
        (fun k => decide (k <:+: (("zzz").data).map Char.toLower))).length = 0 := by decide
  have h2 : ((wsSplit ((("apple").data).map Char.toLower)).filter
      (fun w => 3 ≤ w.length)).length = 1 := by decide
  rw [h1, h2]
  norm_num

/-- **C3, witness.**  The blend inequality at the concrete pool `exStore`
with query `"apple"`: the all-keyword candidate's hybrid score strictly
exceeds the no-keyword candidate's. -/
theorem C3_witness :
    exR1.score * 0.7 + calculateKeywordScore (("apple").data) exR1.content * 0.3 >
      exR2.score * 0.7 + calculateKeywordScore (("apple").data) exR2.content * 0.3 :=
  (C3_hybrid_score_blend exService (("k").data) exStore [] (fun _ => none) (("apple").data)
    15 50 none [(1 : ℝ)] exR1 exR2 exQueryEmbedding
    (by rw [exPool]; exact List.mem_cons_self _ _)
    (by rw [exPool]; exact List.mem_cons_of_mem _ (List.mem_cons_self _ _))
    rfl exKw1 exKw2).2.1

end ON
